import Mathlib

/-!
Verification of the gziptemplate repository: a gzip-stitching template
engine.  Byte strings are modelled as `List Nat` (each element a byte
value), machine integers as `Nat` (with explicit `% 2 ^ 32` where uint32
overflow matters) and `Int` (for Go `int64`, with `none` modelling a
panic).  The CRC-32 combine engine (`combine.go`) is embedded directly;
the template parser and executor (`Template.Reset`, `Template.ExecuteFunc`,
`typeZeroWriter.Write`, `stdTagFunc`) are embedded from the source, with
the external `compress/flate` encoder and `compress/gzip` decoder modelled
from the specification.
-/

/-! ## CRC-32 (reflected, pre/post-inverted), modelling `hash/crc32`

Modelled from the spec: the IEEE CRC-32 used by gzip is the reflected CRC
with the polynomial constant, values XOR-inverted on input and output
(spec glossary and section on CRC ordering).  `hash/crc32` is an external
standard library; the table-driven Go implementation is equivalent to this
standard bitwise definition.
-/

/-- One zero-bit step of the reflected CRC state update: shift right and
conditionally XOR the (reflected) polynomial. -/
def bitStep (poly c : Nat) : Nat :=
  if c % 2 = 1 then (c / 2) ^^^ poly else c / 2

/-- One byte step of the reflected CRC state update: XOR in the byte, then
eight zero-bit steps. -/
def byteStep (poly c b : Nat) : Nat :=
  (bitStep poly)^[8] (c ^^^ b)

/-- The raw (uninverted) CRC state after processing a byte string from a
given starting state. -/
def crcRaw (poly c : Nat) (s : List Nat) : Nat :=
  s.foldl (byteStep poly) c

/-- The CRC-32 of a byte string over a reflected polynomial: raw update from
the all-ones state, inverted at the end (models `crc32.Checksum`). -/
def crc32v (poly : Nat) (s : List Nat) : Nat :=
  crcRaw poly 0xffffffff s ^^^ 0xffffffff

/-- The IEEE polynomial `crc32.IEEE = 0xedb88320` (reflected). -/
def ieeePoly : Nat := 0xedb88320

/-- Continue a running CRC-32 with more bytes (models `crc32.Update`). -/
def updateCRC (poly c : Nat) (s : List Nat) : Nat :=
  crcRaw poly (c ^^^ 0xffffffff) s ^^^ 0xffffffff

/-! ## The CRC-32 combine engine (`combine.go`) -/

/-- Embeds `matrixMult` from `combine.go`: GF(2) matrix-times-vector, where
the matrix is a list of 32 column vectors and bit `n` of `vec` selects
column `n`.  (The Go loop's early exit at `vec = 0` is an optimisation:
the remaining iterations contribute nothing.) -/
def matrixMult : List Nat → Nat → Nat
  | [], _ => 0
  | m :: ms, vec => (if vec % 2 = 1 then m else 0) ^^^ matrixMult ms (vec / 2)

/-- Embeds `matrixSquare` from `combine.go`: `square[n] = matrixMult mat mat[n]`. -/
def matrixSquare (mat : List Nat) : List Nat :=
  mat.map (matrixMult mat)

/-- Embeds the initial `odd` matrix of `precomputeCRC32`: column 0 is the
polynomial, column `n` (for `n = 1..31`) is `1 <<< (n-1)`; the operator for
one zero bit. -/
def oddBase (poly : Nat) : List Nat :=
  poly :: (List.range 31).map (2 ^ ·)

/-- Embeds `precomputeCRC32` from `combine.go`: square the one-zero-bit
operator three times, producing the operator for eight zero bits (one zero
byte).  The `crc32Matrix` struct holds just this `even` matrix. -/
def precomputeCRC32 (poly : Nat) : List Nat :=
  matrixSquare (matrixSquare (matrixSquare (oddBase poly)))

/-- The body of the `combineCRC32` loop from `combine.go`, with a structural
fuel argument so that the definition evaluates by kernel reduction.  One
iteration handles two bits of `len2` (the `even`/`odd` alternation of the Go
loop) and the loop exits as soon as `len2` reaches zero; since `len2` is at
least quartered per iteration, `fuel = len2` always suffices (see
`combineLoop_eq` for the faithful recursion shape). -/
def combineLoopF : Nat → Nat → List Nat → Nat → Nat
  | 0, _, _, crc1 => crc1
  | fuel + 1, len2, even, crc1 =>
    let crc1a := if len2 % 2 = 1 then matrixMult even crc1 else crc1
    let len2a := len2 / 2
    if len2a = 0 then crc1a
    else
      let odd := matrixSquare even
      let crc1b := if len2a % 2 = 1 then matrixMult odd crc1a else crc1a
      let len2b := len2a / 2
      if len2b = 0 then crc1b
      else combineLoopF fuel len2b (matrixSquare odd) crc1b

/-- Embeds the main loop of `combineCRC32` from `combine.go`: scan the bits
of `len2`, applying the current power-of-two zeros operator for each set
bit and squaring as it goes, with `even` and `odd` alternating. -/
def combineLoop (len2 : Nat) (even : List Nat) (crc1 : Nat) : Nat :=
  combineLoopF len2 len2 even crc1

/-- Embeds `combineCRC32` from `combine.go` for a non-negative length
(`len2 : Nat`): apply `len2` zero bytes to `crc1`, then XOR `crc2`. -/
def combineNat (mat : List Nat) (crc1 crc2 len2 : Nat) : Nat :=
  combineLoop len2 mat crc1 ^^^ crc2

/-- Embeds `combineCRC32` from `combine.go` with its Go signature
(`len2 int64`): a negative `len2` panics (modelled as `none`). -/
def combineCRC32 (mat : List Nat) (crc1 crc2 : Nat) (len2 : Int) : Option Nat :=
  if len2 < 0 then none
  else some (combineNat mat crc1 crc2 len2.toNat)

/-- Models Go's conversion `int64(n)` of a `uint64` value `n`: values at or
above `2 ^ 63` wrap to negative. -/
def int64OfUInt64 (n : Nat) : Int :=
  if n % 2 ^ 64 < 2 ^ 63 then (n % 2 ^ 64 : Nat)
  else (n % 2 ^ 64 : Nat) - 2 ^ 64

/-! ## Byte-string utilities (modelling `strings` / `bytes` helpers) -/

/-- Embeds `strings.Index`: the index of the first occurrence of `pat`, or
`none` (Go `-1`) when absent.  An empty pattern matches at index `0`. -/
def idxOf (pat : List Nat) : List Nat → Option Nat
  | [] => if pat.isPrefixOf [] then some 0 else none
  | a :: t =>
    if pat.isPrefixOf (a :: t) then some 0
    else (idxOf pat t).map (· + 1)

/-- Go `strings.Count` for a non-empty separator, with a structural fuel
argument (the scan consumes at least one byte per occurrence, so
`fuel = s.length + 1` always suffices). -/
def countSubF : Nat → List Nat → List Nat → Nat
  | 0, _, _ => 0
  | fuel + 1, sep, s =>
    match idxOf sep s with
    | none => 0
    | some i => 1 + countSubF fuel sep (s.drop (i + sep.length))

/-- Embeds `strings.Count` (non-overlapping occurrences; only used by the
parser to test whether the start tag occurs at all). -/
def countSub (sep s : List Nat) : Nat := countSubF (s.length + 1) sep s

/-- Embeds `bytes.TrimSuffix`. -/
def trimSuffix (suffix l : List Nat) : List Nat :=
  if suffix.isSuffixOf l then l.take (l.length - suffix.length) else l

/-- Little-endian 2-byte encoding (`binary.LittleEndian.PutUint16`). -/
def leBytes2 (n : Nat) : List Nat := [n % 256, n / 256 % 256]

/-- Little-endian 4-byte encoding (`binary.LittleEndian.PutUint32`); only
the low 32 bits of `n` are encoded, as for a Go `uint32`. -/
def le32 (n : Nat) : List Nat :=
  [n % 256, n / 256 % 256, n / 2 ^ 16 % 256, n / 2 ^ 24 % 256]

/-! ## DEFLATE stored blocks and the modelled flate encoder -/

/-- The 5-byte sync-flush marker `00 00 00 FF FF` (`syncFlushFooter` in the
source): an empty non-final stored block. -/
def syncMarker : List Nat := [0x00, 0x00, 0x00, 0xff, 0xff]

/-- A stored-block header: one flag byte (BFINAL, BTYPE=00), then LEN and
NLEN = `^uint16(len)` little-endian. -/
def storedHeader (final : Bool) (len : Nat) : List Nat :=
  (if final then 1 else 0) :: (leBytes2 len ++ leBytes2 (65535 - len))

/-- Byte data framed as non-final stored blocks of at most 65535 bytes each
(no block at all for empty data), with structural fuel (`fuel = s.length`
suffices since each block consumes 65535 bytes). -/
def storedChunksF : Nat → List Nat → List Nat
  | 0, _ => []
  | fuel + 1, s =>
    if s.length = 0 then []
    else if s.length ≤ 65535 then storedHeader false s.length ++ s
    else storedHeader false 65535 ++ s.take 65535 ++ storedChunksF fuel (s.drop 65535)

/-- Modelled from the spec: the DEFLATE bitstream a conforming encoder has
produced for input `s` when it is about to flush or close — here the
stored-block encoding (the level only affects compression ratio, not the
decoded bytes). -/
def storedChunks (s : List Nat) : List Nat := storedChunksF s.length s

/-- Modelled from the spec (`compress/flate` is an external library):
`flate.NewWriter(level).Write(s)` followed by `Flush()` — compressed data
ending at a byte boundary followed by the 5-byte sync-flush marker
(spec section 4.C, steps 1-3). -/
def flateFlushModel (s : List Nat) : List Nat := storedChunks s ++ syncMarker

/-- Modelled from the spec (`compress/flate` is an external library):
`flate.NewWriter(level).Write(s)` followed by `Close()` — compressed data
followed by a final (BFINAL=1) empty stored block. -/
def flateCloseModel (s : List Nat) : List Nat :=
  storedChunks s ++ [0x01, 0x00, 0x00, 0xff, 0xff]

/-! ## The template data model (first implementation variant in
`src/unnamed/part_001`: `segment`, `Template`) -/

/-- Embeds `segment`: precompressed bytes, uncompressed size and CRC. -/
structure Segment where
  bytes : List Nat
  size : Nat
  crc : Nat
deriving DecidableEq

/-- Embeds `Template`: either `template` (a full gzip member, used when
there are no placeholders) or interleaved `texts`/`tags`; `size` is the
total uncompressed size of all text segments (uint32). -/
structure GoTemplate where
  template : List Nat
  texts : List Segment
  tags : List (List Nat)
  size : Nat
  gzipHdr : List Nat
deriving DecidableEq

/-- Embeds the gzip header built in `Template.Reset`: magic, deflate
method, zero flags/mtime, XFL from the level, OS=255 (unknown).  The Go
gzip writer produces the same ten bytes on the zero-placeholder path. -/
def gzipHdrBytes (level : Int) : List Nat :=
  [0x1f, 0x8b, 8, 0, 0, 0, 0, 0,
    if level = 9 then 2 else if level = 1 then 4 else 0, 255]

/-- Modelled from the spec (`compress/gzip` is an external library): the
zero-placeholder path compresses the whole template into one self-contained
gzip member — header, closed DEFLATE stream, CRC32 and ISIZE trailer. -/
def gzipFull (encC : List Nat → List Nat) (level : Int) (tpl : List Nat) : List Nat :=
  gzipHdrBytes level ++ encC tpl ++ le32 (crc32v ieeePoly tpl) ++ le32 tpl.length

/-- The parse loop of `Template.Reset` (and identically `NewTemplate` in the
second variant), parameterised by the flush- and close-mode encoders and
with structural fuel: find the next start tag, compress the preceding text
(close-mode when no start tag remains, flush-mode otherwise, trimming a
trailing sync-flush marker), then find the matching end tag and record the
tag name; a missing end tag is a parse error (`none`).  Each iteration
consumes at least one byte when both delimiters are non-empty, so
`fuel = st.length + 1` suffices. -/
def parseLoopF (encF encC : List Nat → List Nat) (s e : List Nat) :
    Nat → List Nat → Option (List Segment × List (List Nat))
  | 0, _ => none
  | fuel + 1, st =>
    match idxOf s st with
    | none => some ([⟨trimSuffix syncMarker (encC st), st.length, crc32v ieeePoly st⟩], [])
    | some n =>
      let si := st.take n
      let seg : Segment := ⟨trimSuffix syncMarker (encF si), n, crc32v ieeePoly si⟩
      let st1 := st.drop (n + s.length)
      match idxOf e st1 with
      | none => none
      | some m =>
        match parseLoopF encF encC s e fuel (st1.drop (m + e.length)) with
        | none => none
        | some (texts, tags) => some (seg :: texts, st1.take m :: tags)

/-- The parse loop at its canonical fuel. -/
def parseLoopGo (encF encC : List Nat → List Nat) (s e st : List Nat) :
    Option (List Segment × List (List Nat)) :=
  parseLoopF encF encC s e (st.length + 1) st

/-- Result of template construction: `panicked` (empty delimiter, or `New`
on a parse error), `failed` (`NewTemplate` returns an error), or a
template value. -/
inductive GoResult where
  | panicked
  | failed
  | ok (t : GoTemplate)
deriving DecidableEq

/-- Embeds `NewTemplate` (both variants share this logic; the first variant
reaches it through `Template.Reset`): panic on empty delimiters, error on
an invalid compression level (from `flate.NewWriter` /
`gzip.NewWriterLevel`), the self-contained gzip path when the start tag
does not occur, and otherwise the parse loop; `size` accumulates the
uncompressed segment sizes as a `uint32`. -/
def NewTemplateGo (encF encC : List Nat → List Nat) (template s e : List Nat)
    (level : Int) : GoResult :=
  if s = [] then .panicked
  else if e = [] then .panicked
  else if level < -2 ∨ 9 < level then .failed
  else if countSub s template = 0 then
    .ok ⟨gzipFull encC level template, [], [], 0, gzipHdrBytes level⟩
  else
    match parseLoopGo encF encC s e template with
    | none => .failed
    | some (texts, tags) =>
      .ok ⟨[], texts, tags, (texts.map Segment.size).sum % 2 ^ 32, gzipHdrBytes level⟩

/-- Embeds `New`: like `NewTemplate` but a parse error panics. -/
def NewGo (encF encC : List Nat → List Nat) (template s e : List Nat)
    (level : Int) : GoResult :=
  match NewTemplateGo encF encC template s e level with
  | .failed => .panicked
  | r => r

/-! ## Execution: `typeZeroWriter` and `Template.ExecuteFunc` -/

/-- The state threaded through one execution: bytes written so far, the
running CRC (`typeZeroWriter.crc`) and running uncompressed size
(`typeZeroWriter.size`, a `uint32`). -/
structure ExecSt where
  out : List Nat
  crc : Nat
  size : Nat
deriving DecidableEq

/-- One stored block emitted by `typeZeroWriter.Write` for a chunk `q` of at
most 65535 bytes: update size (mod `2 ^ 32`) and CRC, then write the
5-byte header and the chunk. -/
def emitStored (st : ExecSt) (q : List Nat) : ExecSt :=
  { out := st.out ++ storedHeader false q.length ++ q
    crc := updateCRC ieeePoly st.crc q
    size := (st.size + q.length) % 2 ^ 32 }

/-- Embeds `typeZeroWriter.Write` with structural fuel: split the payload
into chunks of at most 65535 bytes, each emitted as one stored block (a
zero-byte write emits one empty stored block). -/
def tzwWriteF : Nat → ExecSt → List Nat → ExecSt
  | 0, st, p => emitStored st p
  | fuel + 1, st, p =>
    if p.length > 65535 then tzwWriteF fuel (emitStored st (p.take 65535)) (p.drop 65535)
    else emitStored st p

/-- `typeZeroWriter.Write` at its canonical fuel. -/
def tzwWrite (st : ExecSt) (p : List Nat) : ExecSt := tzwWriteF p.length st p

/-- One placeholder's value emission in `Template.ExecuteFunc`: the
callback's successive `Write` calls go through the stored-block writer;
if the callback made no `Write` call at all (`zw.wrote` stays false), the
builder emits a bare sync-flush marker. -/
def execValue (calls : List (List Nat)) (st : ExecSt) : ExecSt :=
  let st1 := calls.foldl tzwWrite st
  if calls.isEmpty then { st1 with out := st1.out ++ syncMarker } else st1

/-- The loop of `Template.ExecuteFunc` from iteration `i = 1` on, plus the
final segment: write the segment bytes, fold its CRC into the running CRC
with the combine engine, emit the callback value; for the last segment
return the final digest.  Tags left over when only the final segment
remains are ignored (the Go loop bound is `len(texts) - 1`); running out
of tags or segments is the index-out-of-range panic (`none`). -/
def execLoop1 (f : List Nat → Option (List (List Nat))) :
    List Segment → List (List Nat) → ExecSt → Option (ExecSt × Nat)
  | [last], _, st =>
    some ({ st with out := st.out ++ last.bytes },
      combineNat (precomputeCRC32 ieeePoly) st.crc last.crc last.size)
  | seg :: rest, tag :: tags, st =>
    let st1 : ExecSt :=
      { st with
        out := st.out ++ seg.bytes
        crc := combineNat (precomputeCRC32 ieeePoly) st.crc seg.crc seg.size }
    match f tag with
    | none => none
    | some calls => execLoop1 f rest tags (execValue calls st1)
  | _, _, _ => none

/-- Embeds `Template.ExecuteFunc` (returning the written byte stream, or
`none` when the callback fails): the no-placeholder template is written
verbatim; otherwise the gzip header, then the interleaved segments and
callback values with the running CRC seeded from the first segment's CRC
and the running size from `t.size`, and finally the 8-byte trailer of
digest and size. -/
def executeFunc (t : GoTemplate) (f : List Nat → Option (List (List Nat))) :
    Option (List Nat) :=
  match t.texts with
  | [] => some t.template
  | t0 :: trest =>
    match trest with
    | [] =>
      some (t.gzipHdr ++ t0.bytes ++
        le32 (combineNat (precomputeCRC32 ieeePoly) t0.crc t0.crc t0.size) ++
        le32 t.size)
    | _ :: _ =>
      match t.tags with
      | [] => none
      | tag :: tags =>
        let st0 : ExecSt := ⟨t.gzipHdr ++ t0.bytes, t0.crc, t.size⟩
        match f tag with
        | none => none
        | some calls =>
          match execLoop1 f trest tags (execValue calls st0) with
          | none => none
          | some (st, digest) => some (st.out ++ le32 digest ++ le32 st.size)

/-! ## Map mode (`stdTagFunc`) -/

/-- A Go `interface{}` value as stored in a substitution map: `nil` (also
what a missing key yields), the three recognised kinds — byte slice,
string, `TagFunc` (modelled by the write calls it makes) — or any other
kind. -/
inductive GoValue where
  | nil
  | bytes (b : List Nat)
  | str (s : List Nat)
  | func (calls : List (List Nat))
  | other
deriving DecidableEq

/-- Embeds `stdTagFunc`: `nil` writes nothing; a byte slice or string is
written with a single `Write` call (even when empty); a `TagFunc` makes its
own write calls; any other kind panics (`none`). -/
def stdTagFunc (m : List Nat → GoValue) (tag : List Nat) : Option (List (List Nat)) :=
  match m tag with
  | GoValue.nil => some []
  | GoValue.bytes b => some [b]
  | GoValue.str s => some [s]
  | GoValue.func calls => some calls
  | GoValue.other => none

/-- A Go `map[string]interface{}` as an association list; a missing key
yields the `nil` interface value, exactly as `m[tag]` does in Go. -/
def mapGet : List (List Nat × GoValue) → List Nat → GoValue
  | [], _ => GoValue.nil
  | (k, v) :: rest, tag => if k = tag then v else mapGet rest tag

/-- Remove every entry with the given key from an association-list map. -/
def eraseKey (k : List Nat) : List (List Nat × GoValue) → List (List Nat × GoValue)
  | [] => []
  | (k', v) :: rest =>
    if k' = k then eraseKey k rest else (k', v) :: eraseKey k rest

/-! ## The modelled gzip decoder -/

/-- Modelled from the spec (the test suite decodes with `gzip.NewReader`,
an external library): decode a DEFLATE block sequence restricted to
byte-aligned stored blocks — the only block type the modelled encoder
emits — returning the decoded bytes and whatever follows the final block.
Each block consumes at least five bytes, so `fuel = l.length + 1`
suffices. -/
def inflateLoopF : Nat → List Nat → Option (List Nat × List Nat)
  | 0, _ => none
  | fuel + 1, l =>
    match l with
    | b :: l1 :: l2 :: n1 :: n2 :: rest =>
      if l1 + n1 = 255 ∧ l2 + n2 = 255 then
        let len := l1 + 256 * l2
        if len ≤ rest.length then
          if b = 0 then
            match inflateLoopF fuel (rest.drop len) with
            | none => none
            | some (o, r) => some (rest.take len ++ o, r)
          else if b = 1 then some (rest.take len, rest.drop len)
          else none
        else none
      else none
    | _ => none

/-- The stored-block DEFLATE decoder at its canonical fuel. -/
def inflateLoop (l : List Nat) : Option (List Nat × List Nat) :=
  inflateLoopF (l.length + 1) l

/-- Modelled from the spec: a gzip decoder for the subset the engine emits
(RFC 1952 single member; DEFLATE restricted to byte-aligned stored
blocks).  Checks the magic bytes, the deflate method and the zero flag
byte, decodes the body, and verifies the 8-byte CRC32/ISIZE trailer, as
`gzip.NewReader` does. -/
def gunzip (g : List Nat) : Option (List Nat) :=
  match g with
  | 0x1f :: 0x8b :: 8 :: 0 :: _ :: _ :: _ :: _ :: _ :: _ :: body =>
    match inflateLoop body with
    | none => none
    | some (o, trailer) =>
      if trailer = le32 (crc32v ieeePoly o) ++ le32 o.length then some o
      else none
  | _ => none

/-! ## Derived and specification-side definitions -/

/-- ASCII bytes of a string literal (for concrete test inputs). -/
def strB (s : String) : List Nat := s.data.map Char.toNat

/-- Extract the template of a successful construction (junk otherwise). -/
def templateOf : GoResult → GoTemplate
  | GoResult.ok t => t
  | _ => ⟨[], [], [], 0, []⟩

/-- Whether construction succeeded. -/
def isOkR : GoResult → Bool
  | GoResult.ok _ => true
  | _ => false

/-- The write calls `stdTagFunc` performs for a recognised value (`other`
panics instead and has no write calls). -/
def writesOf : GoValue → List (List Nat)
  | GoValue.nil => []
  | GoValue.bytes b => [b]
  | GoValue.str s => [s]
  | GoValue.func calls => calls
  | GoValue.other => []

/-- The bytes `typeZeroWriter.Write` sends to the underlying writer for one
payload: the payload framed into stored blocks of at most 65535 bytes
(structural fuel, as in `tzwWriteF`). -/
def tzwBytesF : Nat → List Nat → List Nat
  | 0, p => storedHeader false p.length ++ p
  | fuel + 1, p =>
    if p.length > 65535 then
      storedHeader false 65535 ++ p.take 65535 ++ tzwBytesF fuel (p.drop 65535)
    else storedHeader false p.length ++ p

/-- `typeZeroWriter.Write` output bytes at canonical fuel. -/
def tzwBytes (p : List Nat) : List Nat := tzwBytesF p.length p

/-- The bytes one placeholder's value emission appends: the stored blocks
of each write call, then the bare sync-flush marker when there was no
write call. -/
def valueOut (calls : List (List Nat)) : List Nat :=
  (calls.map tzwBytes).flatten ++ (if calls.isEmpty then syncMarker else [])

/-- The segments the parser builds from the raw inter-placeholder texts:
flush-mode compression for all but the last, close-mode for the last, each
with its uncompressed length and CRC. -/
def mkSegs (encF encC : List Nat → List Nat) : List (List Nat) → List Segment
  | [] => []
  | [t] => [⟨trimSuffix syncMarker (encC t), t.length, crc32v ieeePoly t⟩]
  | t :: ts => ⟨trimSuffix syncMarker (encF t), t.length, crc32v ieeePoly t⟩ ::
      mkSegs encF encC ts

/-- The pure splitting skeleton of the parse loop: the raw text pieces and
tag names, without compression (same fuel discipline as `parseLoopF`). -/
def splitLoopF (s e : List Nat) : Nat → List Nat → Option (List (List Nat) × List (List Nat))
  | 0, _ => none
  | fuel + 1, st =>
    match idxOf s st with
    | none => some ([st], [])
    | some n =>
      match idxOf e (st.drop (n + s.length)) with
      | none => none
      | some m =>
        match splitLoopF s e fuel ((st.drop (n + s.length)).drop (m + e.length)) with
        | none => none
        | some (ts, tags) =>
          some (st.take n :: ts, (st.drop (n + s.length)).take m :: tags)

/-- Re-interleave split texts and tags with the delimiters: the inverse of
the parser's split, in template order. -/
def interleaveT (s e : List Nat) : List (List Nat) → List (List Nat) → List Nat
  | [t], [] => t
  | t :: ts, g :: gs => t ++ s ++ g ++ e ++ interleaveT s e ts gs
  | _, _ => []

/-- Texts interleaved with substituted values: the uncompressed output of
one execution. -/
def fullText : List (List Nat) → List (List Nat) → List Nat
  | [t], [] => t
  | t :: ts, v :: vs => t ++ v ++ fullText ts vs
  | _, _ => []

/-- Written from the specification's words (P1 and section 4.D), not from
the source: replace each occurrence of `s TAG e`, scanning left to right,
by `g TAG`; text with no further start tag (or an unterminated start tag)
is kept as is.  Same fuel discipline as the parser. -/
def substSpecF (s e : List Nat) (g : List Nat → List Nat) : Nat → List Nat → List Nat
  | 0, st => st
  | fuel + 1, st =>
    match idxOf s st with
    | none => st
    | some n =>
      match idxOf e (st.drop (n + s.length)) with
      | none => st
      | some m =>
        st.take n ++ g ((st.drop (n + s.length)).take m) ++
          substSpecF s e g fuel ((st.drop (n + s.length)).drop (m + e.length))

/-- The specification's `substitute` at canonical fuel. -/
def substSpec (s e : List Nat) (g : List Nat → List Nat) (st : List Nat) : List Nat :=
  substSpecF s e g (st.length + 1) st

/-- The bytes substituted for one tag in map mode: the concatenation of the
write calls of the map's value (empty for a missing or `nil` key). -/
def mapBytes (m : List Nat → GoValue) (tag : List Nat) : List Nat :=
  (writesOf (m tag)).flatten

/-- The DEFLATE body the executor emits for the (remaining) segments and
tags: each segment's precompressed bytes, interleaved with each
placeholder's value emission. -/
def bodyRest (encF encC : List Nat → List Nat) (F : List Nat → List (List Nat)) :
    List (List Nat) → List (List Nat) → List Nat
  | [t], _ => trimSuffix syncMarker (encC t)
  | t :: ts, g :: gs =>
    trimSuffix syncMarker (encF t) ++ valueOut (F g) ++ bodyRest encF encC F ts gs
  | _, _ => []

/-- A concrete substitution map used in closed instances: tag `x` maps to
the string `11`, every other tag is missing. -/
def mapW : List Nat → GoValue :=
  fun tag => if tag = strB "x" then GoValue.str (strB "11") else GoValue.nil

/-- The substitution map of the identical-delimiter test. -/
def map7 : List (List Nat × GoValue) :=
  [(strB "foo", GoValue.str (strB "111")), (strB "aaa", GoValue.str (strB "bbb"))]

/-- A concrete template used in closed instances: `a[x]b` with delimiters
`[` and `]` at best compression. -/
def tplW : GoTemplate :=
  templateOf (NewTemplateGo flateFlushModel flateCloseModel (strB "a[x]b")
    (strB "[") (strB "]") 9)

/-! ### The fuel of `combineLoopF` is irrelevant as long as it is at least
`len2`, giving the faithful recursion equation of the Go loop. -/

lemma combineLoopF_congr :
    ∀ f1 f2 len2 M c, len2 ≤ f1 → len2 ≤ f2 →
      combineLoopF f1 len2 M c = combineLoopF f2 len2 M c := by
  intro f1
  induction f1 with
  | zero =>
    intro f2 len2 M c h1 _
    have h0 : len2 = 0 := by omega
    subst h0
    cases f2 with
    | zero => rfl
    | succ g => simp [combineLoopF]
  | succ k ih =>
    intro f2 len2 M c h1 h2
    rcases Nat.eq_zero_or_pos len2 with h0 | h0
    · subst h0
      cases f2 with
      | zero => simp [combineLoopF]
      | succ g => simp [combineLoopF]
    · obtain ⟨g, rfl⟩ : ∃ g, f2 = g + 1 :=
        ⟨f2 - 1, by omega⟩
      simp only [combineLoopF]
      have hb : len2 / 2 / 2 ≤ len2 - 1 := by
        have := Nat.div_le_self len2 2
        have h4 : len2 / 2 / 2 ≤ len2 / 2 := Nat.div_le_self _ 2
        rcases Nat.lt_or_ge len2 2 with hlt | hge
        · omega
        · have : len2 / 2 < len2 := Nat.div_lt_self h0 (by norm_num)
          omega
      split
      · rfl
      · split
        · rfl
        · exact ih g _ _ _ (by omega) (by omega)

/-- The faithful recursion equation of the `combineCRC32` loop, exactly as
in `combine.go`. -/
lemma combineLoop_eq (len2 : Nat) (even : List Nat) (crc1 : Nat) :
    combineLoop len2 even crc1 =
      (let crc1a := if len2 % 2 = 1 then matrixMult even crc1 else crc1
       let len2a := len2 / 2
       if len2a = 0 then crc1a
       else
         let odd := matrixSquare even
         let crc1b := if len2a % 2 = 1 then matrixMult odd crc1a else crc1a
         let len2b := len2a / 2
         if len2b = 0 then crc1b
         else combineLoop len2b (matrixSquare odd) crc1b) := by
  unfold combineLoop
  rcases Nat.eq_zero_or_pos len2 with h0 | h0
  · subst h0; simp [combineLoopF]
  · obtain ⟨k, rfl⟩ : ∃ k, len2 = k + 1 := ⟨len2 - 1, by omega⟩
    simp only [combineLoopF]
    split
    · rfl
    · split
      · rfl
      · exact combineLoopF_congr _ _ _ _ _ (by omega)
          (by
            have : (k + 1) / 2 / 2 < k + 1 := by
              have h2 : (k + 1) / 2 ≤ k + 1 := Nat.div_le_self _ 2
              have h3 : (k + 1) / 2 / 2 ≤ (k + 1) / 2 := Nat.div_le_self _ 2
              have : (k + 1) / 2 < k + 1 := Nat.div_lt_self (by omega) (by norm_num)
              omega
            omega)

/-! ## GF(2) bit algebra: XOR interacts with parity, halving and doubling -/

lemma xor_mod_two (x y : Nat) : (x ^^^ y) % 2 = (x % 2) ^^^ (y % 2) := by
  have h := Nat.testBit_xor x y 0
  simp only [Nat.testBit_zero] at h
  rcases Nat.mod_two_eq_zero_or_one x with hx | hx <;>
  rcases Nat.mod_two_eq_zero_or_one y with hy | hy <;>
  rcases Nat.mod_two_eq_zero_or_one (x ^^^ y) with hxy | hxy <;>
  · rw [hx, hy, hxy] at h ⊢
    revert h
    decide

lemma xor_div_two (x y : Nat) : (x ^^^ y) / 2 = (x / 2) ^^^ (y / 2) := by
  apply Nat.eq_of_testBit_eq
  intro i
  rw [Nat.testBit_xor, ← Nat.testBit_succ, ← Nat.testBit_succ, ← Nat.testBit_succ,
    Nat.testBit_xor]

lemma xor_xor_cancel (a b p : Nat) : (a ^^^ p) ^^^ (b ^^^ p) = a ^^^ b := by
  rw [Nat.xor_assoc a p, Nat.xor_comm b p, ← Nat.xor_assoc p p b,
    Nat.xor_self, Nat.zero_xor]

lemma xor_cancel_right (a p : Nat) : (a ^^^ p) ^^^ p = a := by
  rw [Nat.xor_assoc, Nat.xor_self, Nat.xor_zero]

lemma two_mul_xor (x y : Nat) : (2 * x) ^^^ (2 * y) = 2 * (x ^^^ y) := by
  apply Nat.eq_of_testBit_eq
  intro i
  have d2 : ∀ m : Nat, 2 * m / 2 = m := fun m => by omega
  cases i with
  | zero =>
    simp only [Nat.testBit_zero, xor_mod_two, Nat.mul_mod_right]
    decide
  | succ j =>
    rw [Nat.testBit_succ, Nat.testBit_succ, xor_div_two, d2, d2, d2]

lemma one_xor_two_mul (m : Nat) : 1 ^^^ (2 * m) = 2 * m + 1 := by
  apply Nat.eq_of_testBit_eq
  intro i
  cases i with
  | zero =>
    have h1 : (1 ^^^ 2 * m) % 2 = 1 := by
      rw [xor_mod_two, Nat.mul_mod_right]
      decide
    have h2 : (2 * m + 1) % 2 = 1 := by omega
    simp only [Nat.testBit_zero, h1, h2]
  | succ j =>
    rw [Nat.testBit_succ, Nat.testBit_succ, xor_div_two]
    have h1 : (1:Nat) / 2 = 0 := by norm_num
    have h2 : 2 * m / 2 = m := by omega
    have h3 : (2 * m + 1) / 2 = m := by omega
    rw [h1, h2, h3, Nat.zero_xor]

lemma mod_two_xor_two_mul_div_two (w : Nat) : (w % 2) ^^^ (2 * (w / 2)) = w := by
  rcases Nat.mod_two_eq_zero_or_one w with hw | hw
  · rw [hw, Nat.zero_xor]
    omega
  · rw [hw, one_xor_two_mul]
    omega

/-! ## Linearity of the CRC state update over GF(2) -/

lemma bitStep_xor (poly x y : Nat) :
    bitStep poly (x ^^^ y) = bitStep poly x ^^^ bitStep poly y := by
  have hxy := xor_mod_two x y
  unfold bitStep
  rcases Nat.mod_two_eq_zero_or_one x with hx | hx <;>
    rcases Nat.mod_two_eq_zero_or_one y with hy | hy
  · rw [hx, hy] at hxy
    simp only [Nat.xor_zero] at hxy
    rw [if_neg (by omega), if_neg (by omega), if_neg (by omega), xor_div_two]
  · rw [hx, hy] at hxy
    simp only [Nat.zero_xor] at hxy
    rw [if_pos hxy, if_neg (by omega), if_pos hy, xor_div_two, Nat.xor_assoc]
  · rw [hx, hy] at hxy
    simp only [Nat.xor_zero] at hxy
    rw [if_pos hxy, if_pos hx, if_neg (by omega), xor_div_two,
      Nat.xor_assoc, Nat.xor_comm (y / 2) poly, ← Nat.xor_assoc]
  · rw [hx, hy] at hxy
    simp only [Nat.xor_self] at hxy
    rw [if_neg (by omega), if_pos hx, if_pos hy, xor_div_two, xor_xor_cancel]

lemma bitStep_iterate_xor (poly k x y : Nat) :
    (bitStep poly)^[k] (x ^^^ y) = (bitStep poly)^[k] x ^^^ (bitStep poly)^[k] y := by
  induction k generalizing x y with
  | zero => rfl
  | succ n ih =>
    rw [Function.iterate_succ_apply, Function.iterate_succ_apply,
      Function.iterate_succ_apply, bitStep_xor]
    exact ih _ _

lemma crcRaw_cons (poly c b : Nat) (s : List Nat) :
    crcRaw poly c (b :: s) = crcRaw poly (byteStep poly c b) s := rfl

lemma crcRaw_xor (poly : Nat) (s : List Nat) :
    ∀ u v, crcRaw poly (u ^^^ v) s =
      (bitStep poly)^[8 * s.length] u ^^^ crcRaw poly v s := by
  induction s with
  | nil => intro u v; simp [crcRaw]
  | cons b t ih =>
    intro u v
    rw [crcRaw_cons, crcRaw_cons]
    have h1 : byteStep poly (u ^^^ v) b =
        (bitStep poly)^[8] u ^^^ byteStep poly v b := by
      unfold byteStep
      rw [Nat.xor_assoc, bitStep_iterate_xor]
    rw [h1, ih, ← Function.iterate_add_apply]
    have he : 8 * t.length + 8 = 8 * (b :: t).length := by
      simp only [List.length_cons]
      ring
    rw [he]

lemma crcRaw_append (poly c : Nat) (A B : List Nat) :
    crcRaw poly c (A ++ B) = crcRaw poly (crcRaw poly c A) B := by
  unfold crcRaw
  rw [List.foldl_append]

lemma crc32_append (poly : Nat) (A B : List Nat) :
    crc32v poly (A ++ B) =
      (bitStep poly)^[8 * B.length] (crc32v poly A) ^^^ crc32v poly B := by
  unfold crc32v
  rw [crcRaw_append]
  have ha : crcRaw poly 0xffffffff A =
      (crcRaw poly 0xffffffff A ^^^ 0xffffffff) ^^^ 0xffffffff :=
    (xor_cancel_right _ _).symm
  conv_lhs => rw [ha]
  rw [crcRaw_xor, Nat.xor_assoc]

lemma updateCRC_crc32 (poly : Nat) (X p : List Nat) :
    updateCRC poly (crc32v poly X) p = crc32v poly (X ++ p) := by
  unfold updateCRC crc32v
  rw [xor_cancel_right]
  congr 1
  unfold crcRaw
  rw [List.foldl_append]

/-! ## GF(2) matrix-vector algebra for the combine engine -/

lemma matrixMult_zero (M : List Nat) : matrixMult M 0 = 0 := by
  induction M with
  | nil => rfl
  | cons m ms ih => simp [matrixMult, ih]

lemma xor_cancel_left (a b : Nat) : a ^^^ (a ^^^ b) = b := by
  rw [← Nat.xor_assoc, Nat.xor_self, Nat.zero_xor]

lemma xor_left_comm (a b c : Nat) : a ^^^ (b ^^^ c) = b ^^^ (a ^^^ c) := by
  rw [← Nat.xor_assoc, Nat.xor_comm a b, Nat.xor_assoc]

lemma matrixMult_xor (M : List Nat) :
    ∀ x y, matrixMult M (x ^^^ y) = matrixMult M x ^^^ matrixMult M y := by
  induction M with
  | nil => intro x y; simp [matrixMult]
  | cons m ms ih =>
    intro x y
    simp only [matrixMult]
    rw [xor_div_two, ih]
    have hxy := xor_mod_two x y
    rcases Nat.mod_two_eq_zero_or_one x with hx | hx <;>
      rcases Nat.mod_two_eq_zero_or_one y with hy | hy <;>
      rw [hx, hy] at hxy <;>
      simp only [Nat.xor_zero, Nat.zero_xor, Nat.xor_self] at hxy <;>
      simp [hxy, hx, hy, Nat.xor_assoc, Nat.xor_comm, xor_left_comm,
        Nat.xor_self, Nat.xor_zero, Nat.zero_xor, xor_cancel_left]

lemma matrixMult_map (M : List Nat) (f : Nat → Nat) (hf0 : f 0 = 0)
    (hfx : ∀ a b, f (a ^^^ b) = f a ^^^ f b) :
    ∀ v, matrixMult (M.map f) v = f (matrixMult M v) := by
  induction M with
  | nil => intro v; simp [matrixMult, hf0]
  | cons m ms ih =>
    intro v
    simp only [List.map_cons, matrixMult]
    rw [ih, hfx]
    congr 1
    split
    · rfl
    · exact hf0.symm

lemma matrixSquare_mult (M : List Nat) (v : Nat) :
    matrixMult (matrixSquare M) v = matrixMult M (matrixMult M v) := by
  unfold matrixSquare
  exact matrixMult_map M _ (matrixMult_zero M) (matrixMult_xor M) v

lemma combineLoop_iterate :
    ∀ len2 (M : List Nat) (c : Nat), combineLoop len2 M c = (matrixMult M)^[len2] c := by
  intro len2
  induction len2 using Nat.strong_induction_on with
  | _ len2 ih =>
    intro M c
    rw [combineLoop_eq]
    dsimp only
    by_cases h2 : len2 / 2 = 0
    · rw [if_pos h2]
      have : len2 = 0 ∨ len2 = 1 := by omega
      rcases this with h | h <;> subst h
      · rw [if_neg (by norm_num)]
        rfl
      · rw [if_pos (by norm_num)]
        rfl
    · rw [if_neg h2]
      by_cases h4 : len2 / 2 / 2 = 0
      · rw [if_pos h4]
        have : len2 = 2 ∨ len2 = 3 := by omega
        rcases this with h | h <;> subst h
        · rw [if_pos (by norm_num), if_neg (by norm_num), matrixSquare_mult]
          rfl
        · rw [if_pos (by norm_num), if_pos (by norm_num), matrixSquare_mult]
          rfl
      · rw [if_neg h4]
        rw [ih (len2 / 2 / 2) (by omega) _ _]
        have hfun : matrixMult (matrixSquare (matrixSquare M)) = (matrixMult M)^[4] := by
          funext z
          rw [matrixSquare_mult, matrixSquare_mult, matrixSquare_mult]
          rfl
        rw [hfun, ← Function.iterate_mul]
        by_cases hb0 : len2 % 2 = 1 <;> by_cases hb1 : (len2 / 2) % 2 = 1
        · rw [if_pos hb0, if_pos hb1, matrixSquare_mult]
          have e1 : matrixMult M (matrixMult M (matrixMult M c)) = (matrixMult M)^[3] c := rfl
          rw [e1, ← Function.iterate_add_apply]
          congr 1
          omega
        · rw [if_pos hb0, if_neg hb1]
          have e1 : matrixMult M c = (matrixMult M)^[1] c := rfl
          rw [e1, ← Function.iterate_add_apply]
          congr 1
          omega
        · rw [if_neg hb0, if_pos hb1, matrixSquare_mult]
          have e1 : matrixMult M (matrixMult M c) = (matrixMult M)^[2] c := rfl
          rw [e1, ← Function.iterate_add_apply]
          congr 1
          omega
        · rw [if_neg hb0, if_neg hb1]
          congr 1
          omega

/-! ## The precomputed matrix is the eight-zero-bit CRC operator -/

lemma mm_two_mul_map (L : List Nat) :
    ∀ w, matrixMult (L.map (2 * ·)) w = 2 * matrixMult L w := by
  induction L with
  | nil => intro w; simp [matrixMult]
  | cons m ms ih =>
    intro w
    simp only [List.map_cons, matrixMult]
    rw [ih]
    have hsel : (if w % 2 = 1 then 2 * m else 0) = 2 * (if w % 2 = 1 then m else 0) := by
      split <;> ring
    rw [hsel, two_mul_xor]

lemma powList_id : ∀ k w, w < 2 ^ k → matrixMult ((List.range k).map (2 ^ ·)) w = w := by
  intro k
  induction k with
  | zero =>
    intro w hw
    have : w = 0 := by omega
    subst this
    rfl
  | succ n ih =>
    intro w hw
    have hmap : (List.range (n + 1)).map (2 ^ ·) =
        1 :: ((List.range n).map (2 ^ ·)).map (2 * ·) := by
      rw [List.range_succ_eq_map, List.map_cons, List.map_map, List.map_map]
      congr 1
      apply List.map_congr_left
      intro a _
      simp [Function.comp, Nat.pow_succ]
      ring
    rw [hmap]
    simp only [matrixMult]
    have hw2 : w / 2 < 2 ^ n := by
      rw [Nat.div_lt_iff_lt_mul (by norm_num : (0:Nat) < 2)]
      calc w < 2 ^ (n + 1) := hw
        _ = 2 ^ n * 2 := by rw [Nat.pow_succ]
    rw [mm_two_mul_map, ih (w / 2) hw2]
    have hsel : (if w % 2 = 1 then 1 else 0) = w % 2 := by
      rcases Nat.mod_two_eq_zero_or_one w with h | h <;> simp [h]
    rw [hsel]
    exact mod_two_xor_two_mul_div_two w

lemma mm_oddBase (poly v : Nat) (hv : v < 2 ^ 32) :
    matrixMult (oddBase poly) v = bitStep poly v := by
  have hv2 : v / 2 < 2 ^ 31 := by
    rw [Nat.div_lt_iff_lt_mul (by norm_num : (0:Nat) < 2)]
    calc v < 2 ^ 32 := hv
      _ = 2 ^ 31 * 2 := by norm_num
  have h1 : matrixMult (oddBase poly) v =
      (if v % 2 = 1 then poly else 0) ^^^
        matrixMult ((List.range 31).map (2 ^ ·)) (v / 2) := rfl
  rw [h1, powList_id 31 (v / 2) hv2]
  unfold bitStep
  rcases Nat.mod_two_eq_zero_or_one v with h | h
  · rw [if_neg (by omega), if_neg (by omega), Nat.zero_xor]
  · rw [if_pos h, if_pos h, Nat.xor_comm]

lemma bitStep_lt (poly c : Nat) (hp : poly < 2 ^ 32) (hc : c < 2 ^ 32) :
    bitStep poly c < 2 ^ 32 := by
  unfold bitStep
  split
  · exact Nat.xor_lt_two_pow (Nat.lt_of_le_of_lt (Nat.div_le_self c 2) hc) hp
  · exact Nat.lt_of_le_of_lt (Nat.div_le_self c 2) hc

lemma bitStep_iterate_lt (poly : Nat) (hp : poly < 2 ^ 32) :
    ∀ k c, c < 2 ^ 32 → (bitStep poly)^[k] c < 2 ^ 32 := by
  intro k
  induction k with
  | zero => intro c hc; exact hc
  | succ n ih =>
    intro c hc
    rw [Function.iterate_succ_apply]
    exact ih _ (bitStep_lt poly c hp hc)

lemma mm_oddBase_iterate (poly : Nat) (hp : poly < 2 ^ 32) :
    ∀ k c, c < 2 ^ 32 → (matrixMult (oddBase poly))^[k] c = (bitStep poly)^[k] c := by
  intro k
  induction k with
  | zero => intro c _; rfl
  | succ n ih =>
    intro c hc
    rw [Function.iterate_succ_apply, Function.iterate_succ_apply, mm_oddBase poly c hc]
    exact ih _ (bitStep_lt poly c hp hc)

lemma mm_precompute (poly v : Nat) :
    matrixMult (precomputeCRC32 poly) v = (matrixMult (oddBase poly))^[8] v := by
  unfold precomputeCRC32
  simp only [matrixSquare_mult]
  rfl

lemma crcRaw_lt (poly : Nat) (hp : poly < 2 ^ 32) (A : List Nat)
    (hA : ∀ b ∈ A, b < 256) :
    ∀ c, c < 2 ^ 32 → crcRaw poly c A < 2 ^ 32 := by
  induction A with
  | nil => intro c hc; exact hc
  | cons b t ih =>
    intro c hc
    rw [crcRaw_cons]
    have hb : b < 256 := hA b (List.mem_cons_self b t)
    have h1 : byteStep poly c b < 2 ^ 32 := by
      unfold byteStep
      exact bitStep_iterate_lt poly hp 8 _
        (Nat.xor_lt_two_pow hc (by omega))
    exact ih (fun x hx => hA x (List.mem_cons_of_mem b hx)) _ h1

lemma crc32v_lt (poly : Nat) (hp : poly < 2 ^ 32) (A : List Nat)
    (hA : ∀ b ∈ A, b < 256) : crc32v poly A < 2 ^ 32 := by
  unfold crc32v
  exact Nat.xor_lt_two_pow (crcRaw_lt poly hp A hA _ (by norm_num)) (by norm_num)

/-- Core combine correctness: applying the precomputed zero-byte operator
`|B|` times to `CRC(A)` and XORing `CRC(B)` yields `CRC(A ++ B)`. -/
lemma combineNat_correct (poly : Nat) (hp : poly < 2 ^ 32) (A B : List Nat)
    (hA : ∀ b ∈ A, b < 256) :
    combineNat (precomputeCRC32 poly) (crc32v poly A) (crc32v poly B) B.length
      = crc32v poly (A ++ B) := by
  unfold combineNat
  rw [combineLoop_iterate]
  have hfun : matrixMult (precomputeCRC32 poly) = (matrixMult (oddBase poly))^[8] :=
    funext (mm_precompute poly)
  rw [hfun, ← Function.iterate_mul,
    mm_oddBase_iterate poly hp _ _ (crc32v_lt poly hp A hA), crc32_append]

/-! ## Claim theorems for the combine engine -/

/-- C2: CRC-32 combine contract.  For every matrix precomputed by
`precomputeCRC32 poly` (a `uint32` polynomial, hence `poly < 2 ^ 32`) and
all byte strings `A` and `B`, `combineCRC32 mat (CRC A) (CRC B) |B|` equals
`CRC (A ++ B)`, where `CRC` is the standard reflected pre/post-inverted
CRC-32 over `poly`; in particular this holds for the IEEE polynomial
`0xedb88320` used by gzip. -/
theorem crc32_combine_contract (poly : Nat) (hp : poly < 2 ^ 32) (A B : List Nat)
    (hA : ∀ b ∈ A, b < 256) :
    combineCRC32 (precomputeCRC32 poly) (crc32v poly A) (crc32v poly B) (B.length : Int)
      = some (crc32v poly (A ++ B)) := by
  unfold combineCRC32
  rw [if_neg (by omega), Int.toNat_natCast, combineNat_correct poly hp A B hA]

/-- Witness for C2: the combine contract evaluated at the IEEE polynomial
with `A = "a"` and `B = "bc"`. -/
theorem crc32_combine_contract_witness :
    ieeePoly < 2 ^ 32 ∧
    combineCRC32 (precomputeCRC32 ieeePoly) (crc32v ieeePoly [97]) (crc32v ieeePoly [98, 99])
      (([98, 99] : List Nat).length : Int) = some (crc32v ieeePoly ([97] ++ [98, 99])) :=
  ⟨by decide, crc32_combine_contract ieeePoly (by decide) [97] [98, 99] (by decide)⟩

set_option maxRecDepth 1000000 in
/-- C3: regression instance pinning the GF(2) matrix indexing —
`combineCRC32` over the IEEE polynomial at `crc_a = 0xdeadbeef`,
`crc_b = 0x1337f001`, `len_b = 2 ^ 31` returns exactly `0xa360d9f3`. -/
theorem combineCRC32_regression_pow31 :
    combineCRC32 (precomputeCRC32 ieeePoly) 0xdeadbeef 0x1337f001 ((2 : Int) ^ 31)
      = some 0xa360d9f3 := by decide

/-- Counterexample to C4 as stated: the length `2 ^ 63` is non-negative and
at most `2 ^ 64 - 1`, but `combineCRC32` takes `len2 int64`, so passing it
wraps to a negative value and the call panics (`none`) instead of computing
a combined CRC. -/
theorem combineCRC32_pow63_panics :
    int64OfUInt64 (2 ^ 63) < 0 ∧
    combineCRC32 (precomputeCRC32 ieeePoly) 0xdeadbeef 0x1337f001 (int64OfUInt64 (2 ^ 63))
      = none := by
  constructor
  · decide
  · unfold combineCRC32
    rw [if_pos (by decide)]

/-- C4 (amended): `combineCRC32` treats a negative `len2` as a programmer
error and panics; every non-negative `int64` length (hence every length up
to `2 ^ 63 - 1`, covering the spec's regression lengths up to `2 ^ 47`) is
accepted and the combined CRC is computed without failing. -/
theorem combineCRC32_length_domain (mat : List Nat) (c1 c2 : Nat) :
    (∀ l : Int, l < 0 → combineCRC32 mat c1 c2 l = none) ∧
    (∀ l : Int, 0 ≤ l → ∃ r, combineCRC32 mat c1 c2 l = some r) := by
  constructor
  · intro l hl
    unfold combineCRC32
    rw [if_pos hl]
  · intro l hl
    unfold combineCRC32
    rw [if_neg (by omega)]
    exact ⟨_, rfl⟩

/-- Witness for C4 (amended), at the IEEE matrix with the spec's largest
regression length `2 ^ 47` and a negative length `-1`. -/
theorem combineCRC32_length_domain_witness :
    combineCRC32 (precomputeCRC32 ieeePoly) 0xdeadbeef 0x1337f001 (-1) = none ∧
    ∃ r, combineCRC32 (precomputeCRC32 ieeePoly) 0xdeadbeef 0x1337f001 ((2 : Int) ^ 47)
      = some r :=
  ⟨(combineCRC32_length_domain _ _ _).1 (-1) (by norm_num),
   (combineCRC32_length_domain _ _ _).2 _ (by positivity)⟩

/-! ## Support lemmas: substring search, suffix trimming, encodings -/

lemma isPrefixOf_append_drop :
    ∀ (pat l : List Nat), pat.isPrefixOf l = true → l = pat ++ l.drop pat.length := by
  intro pat
  induction pat with
  | nil => intro l _; simp
  | cons a p ihp =>
    intro l h
    cases l with
    | nil => simp [List.isPrefixOf] at h
    | cons b t =>
      simp only [List.isPrefixOf, Bool.and_eq_true, beq_iff_eq] at h
      obtain ⟨rfl, h2⟩ := h
      have := ihp t h2
      simpa [List.length_cons] using this

lemma isPrefixOf_length_le {pat l : List Nat} (h : pat.isPrefixOf l = true) :
    pat.length ≤ l.length := by
  have := isPrefixOf_append_drop pat l h
  have hl : l.length = pat.length + (l.drop pat.length).length := by
    conv_lhs => rw [this]
    simp
  omega

lemma idxOf_decomp :
    ∀ (l pat : List Nat) (n : Nat), idxOf pat l = some n →
      n + pat.length ≤ l.length ∧ l = l.take n ++ pat ++ l.drop (n + pat.length) := by
  intro l
  induction l with
  | nil =>
    intro pat n h
    simp only [idxOf] at h
    split at h
    · rename_i hp
      obtain rfl : (0 : Nat) = n := by simpa using h
      have h1 := isPrefixOf_length_le hp
      simp only [List.length_nil, Nat.le_zero] at h1
      have hp0 : pat = [] := List.length_eq_zero.mp h1
      subst hp0
      simp
    · exact absurd h (by simp)
  | cons a t ih =>
    intro pat n h
    simp only [idxOf] at h
    split at h
    · rename_i hp
      obtain rfl : (0 : Nat) = n := by simpa using h
      have h1 := isPrefixOf_length_le hp
      have h2 := isPrefixOf_append_drop pat (a :: t) hp
      refine ⟨by simpa using h1, ?_⟩
      rw [List.take_zero, List.nil_append, Nat.zero_add]
      exact h2
    · rcases ho : idxOf pat t with _ | m
      · rw [ho] at h; exact absurd h (by simp)
      · rw [ho] at h
        obtain rfl : m + 1 = n := by simpa using h
        obtain ⟨hle, hdec⟩ := ih pat m ho
        refine ⟨by simp only [List.length_cons]; omega, ?_⟩
        have hidx : m + 1 + pat.length = (m + pat.length) + 1 := by omega
        rw [hidx, List.take_succ_cons, List.drop_succ_cons,
          List.cons_append, List.cons_append]
        exact congrArg (a :: ·) hdec

lemma countSub_zero_iff (sep s : List Nat) :
    countSub sep s = 0 ↔ idxOf sep s = none := by
  unfold countSub
  rcases h : idxOf sep s with _ | i <;> simp [countSubF, h]

lemma trimSuffix_append (suf l : List Nat) : trimSuffix suf (l ++ suf) = l := by
  unfold trimSuffix
  rw [if_pos (by simp [List.isSuffixOf_iff_suffix])]
  have h1 : (l ++ suf).length - suf.length = l.length := by
    simp [List.length_append]
  rw [h1, List.take_left]

lemma suffix_eq_of_length {l1 l2 L : List Nat} (h1 : l1 <:+ L) (h2 : l2 <:+ L)
    (hl : l1.length = l2.length) : l1 = l2 := by
  obtain ⟨a, ha⟩ := h1
  obtain ⟨b, hb⟩ := h2
  rw [← hb] at ha
  have hab : a.length = b.length := by
    have := congrArg List.length ha
    simp only [List.length_append] at this
    omega
  exact (List.append_inj ha hab).2

lemma trimSuffix_close (x : List Nat) :
    trimSuffix syncMarker (x ++ [0x01, 0x00, 0x00, 0xff, 0xff])
      = x ++ [0x01, 0x00, 0x00, 0xff, 0xff] := by
  unfold trimSuffix
  rw [if_neg]
  intro hc
  rw [List.isSuffixOf_iff_suffix] at hc
  have h2 : [0x01, 0x00, 0x00, 0xff, 0xff] <:+ x ++ [0x01, 0x00, 0x00, 0xff, 0xff] :=
    ⟨x, rfl⟩
  have := suffix_eq_of_length hc h2 (by simp [syncMarker])
  simp [syncMarker] at this

lemma le32_mod (n : Nat) : le32 (n % 2 ^ 32) = le32 n := by
  unfold le32
  have h1 : n % 2 ^ 32 % 256 = n % 256 := by omega
  have h2 : n % 2 ^ 32 / 256 % 256 = n / 256 % 256 := by omega
  have h3 : n % 2 ^ 32 / 2 ^ 16 % 256 = n / 2 ^ 16 % 256 := by omega
  have h4 : n % 2 ^ 32 / 2 ^ 24 % 256 = n / 2 ^ 24 % 256 := by omega
  rw [h1, h2, h3, h4]

/-! ## Characterising the parse loop by the pure splitter -/

lemma mkSegs_cons (encF encC : List Nat → List Nat) (t : List Nat)
    (ts : List (List Nat)) (h : ts ≠ []) :
    mkSegs encF encC (t :: ts) =
      ⟨trimSuffix syncMarker (encF t), t.length, crc32v ieeePoly t⟩ ::
        mkSegs encF encC ts := by
  cases ts with
  | nil => exact absurd rfl h
  | cons a l => rfl

lemma splitLoopF_shape (s e : List Nat) :
    ∀ fuel st ts tags, splitLoopF s e fuel st = some (ts, tags) →
      ts.length = tags.length + 1 := by
  intro fuel
  induction fuel with
  | zero => intro st ts tags h; simp [splitLoopF] at h
  | succ f ih =>
    intro st ts tags h
    simp only [splitLoopF] at h
    split at h
    · simp only [Option.some_inj, Prod.mk.injEq] at h
      obtain ⟨rfl, rfl⟩ := h
      simp
    · split at h
      · exact absurd h (by simp)
      · split at h
        · exact absurd h (by simp)
        · rename_i ts' tags' h3
          simp only [Option.some_inj, Prod.mk.injEq] at h
          obtain ⟨rfl, rfl⟩ := h
          simp only [List.length_cons]
          rw [ih _ _ _ h3]

lemma splitLoopF_ne_nil {s e : List Nat} {fuel : Nat} {st : List Nat}
    {ts tags : List (List Nat)}
    (h : splitLoopF s e fuel st = some (ts, tags)) : ts ≠ [] := by
  have := splitLoopF_shape s e fuel st ts tags h
  intro hc
  subst hc
  simp at this

lemma splitLoopF_interleave (s e : List Nat) :
    ∀ fuel st ts tags, splitLoopF s e fuel st = some (ts, tags) →
      interleaveT s e ts tags = st := by
  intro fuel
  induction fuel with
  | zero => intro st ts tags h; simp [splitLoopF] at h
  | succ f ih =>
    intro st ts tags h
    simp only [splitLoopF] at h
    split at h
    · simp only [Option.some_inj, Prod.mk.injEq] at h
      obtain ⟨rfl, rfl⟩ := h
      rfl
    · rename_i n h1
      split at h
      · exact absurd h (by simp)
      · rename_i m h2
        split at h
        · exact absurd h (by simp)
        · rename_i ts' tags' h3
          simp only [Option.some_inj, Prod.mk.injEq] at h
          obtain ⟨rfl, rfl⟩ := h
          have hrec := ih _ _ _ h3
          obtain ⟨hn, hsdec⟩ := idxOf_decomp st s n h1
          obtain ⟨hm, hedec⟩ := idxOf_decomp (st.drop (n + s.length)) e m h2
          simp only [interleaveT]
          rw [hrec]
          conv_rhs => rw [hsdec]
          conv_rhs => rw [hedec]
          simp [List.append_assoc]

lemma splitLoopF_mem (s e : List Nat) :
    ∀ fuel st ts tags, splitLoopF s e fuel st = some (ts, tags) →
      (∀ u ∈ ts, ∀ b ∈ u, b ∈ st) ∧ (∀ g ∈ tags, ∀ b ∈ g, b ∈ st) := by
  intro fuel
  induction fuel with
  | zero => intro st ts tags h; simp [splitLoopF] at h
  | succ f ih =>
    intro st ts tags h
    simp only [splitLoopF] at h
    split at h
    · simp only [Option.some_inj, Prod.mk.injEq] at h
      obtain ⟨rfl, rfl⟩ := h
      refine ⟨?_, by simp⟩
      intro u hu b hb
      simp only [List.mem_singleton] at hu
      subst hu
      exact hb
    · rename_i n h1
      split at h
      · exact absurd h (by simp)
      · rename_i m h2
        split at h
        · exact absurd h (by simp)
        · rename_i ts' tags' h3
          simp only [Option.some_inj, Prod.mk.injEq] at h
          obtain ⟨rfl, rfl⟩ := h
          obtain ⟨iht, ihg⟩ := ih _ _ _ h3
          have hsub : ∀ b : Nat,
              b ∈ (st.drop (n + s.length)).drop (m + e.length) → b ∈ st :=
            fun b hb => List.drop_subset _ _ (List.drop_subset _ _ hb)
          constructor
          · intro u hu b hb
            rcases List.mem_cons.mp hu with rfl | hu'
            · exact List.take_subset _ _ hb
            · exact hsub b (iht u hu' b hb)
          · intro g hg b hb
            rcases List.mem_cons.mp hg with rfl | hg'
            · exact List.drop_subset _ _ (List.take_subset _ _ hb)
            · exact hsub b (ihg g hg' b hb)
lemma parseLoopF_split (encF encC : List Nat → List Nat) (s e : List Nat) :
    ∀ fuel st, parseLoopF encF encC s e fuel st =
      (splitLoopF s e fuel st).map (fun p => (mkSegs encF encC p.1, p.2)) := by
  intro fuel
  induction fuel with
  | zero => intro st; simp [parseLoopF, splitLoopF]
  | succ f ih =>
    intro st
    simp only [parseLoopF, splitLoopF]
    rcases h1 : idxOf s st with _ | n
    · simp [h1, mkSegs]
    · simp only [h1]
      rcases h2 : idxOf e (st.drop (n + s.length)) with _ | m
      · simp [h2]
      · simp only [h2]
        rw [ih]
        rcases h3 : splitLoopF s e f ((st.drop (n + s.length)).drop (m + e.length))
          with _ | ⟨ts', tags'⟩
        · simp [h3]
        · have hne : ts' ≠ [] := splitLoopF_ne_nil h3
          have hb := (idxOf_decomp st s n h1).1
          simp [h3, mkSegs_cons _ _ _ _ hne]
          omega

lemma substSpecF_split (s e : List Nat) (g : List Nat → List Nat) :
    ∀ fuel st ts tags, splitLoopF s e fuel st = some (ts, tags) →
      substSpecF s e g fuel st = fullText ts (tags.map g) := by
  intro fuel
  induction fuel with
  | zero => intro st ts tags h; simp [splitLoopF] at h
  | succ f ih =>
    intro st ts tags h
    simp only [splitLoopF] at h
    split at h
    · simp only [Option.some_inj, Prod.mk.injEq] at h
      obtain ⟨rfl, rfl⟩ := h
      rename_i h1
      simp [substSpecF, h1, fullText]
    · rename_i n h1
      split at h
      · exact absurd h (by simp)
      · rename_i m h2
        split at h
        · exact absurd h (by simp)
        · rename_i ts' tags' h3
          simp only [Option.some_inj, Prod.mk.injEq] at h
          obtain ⟨rfl, rfl⟩ := h
          have hrec := ih _ _ _ h3
          have hne : ts' ≠ [] := splitLoopF_ne_nil h3
          simp only [substSpecF, h1, h2, hrec, List.map_cons]
          cases ts' with
          | nil => exact absurd rfl hne
          | cons a l => simp [fullText]

lemma mkSegs_sizes (encF encC : List Nat → List Nat) :
    ∀ ts, (mkSegs encF encC ts).map Segment.size = ts.map List.length := by
  intro ts
  induction ts with
  | nil => rfl
  | cons t rest ih =>
    cases rest with
    | nil => rfl
    | cons a l =>
      rw [mkSegs_cons _ _ _ _ (by simp)]
      simp only [List.map_cons] at ih ⊢
      rw [ih]

/-! ## Decoding the emitted block structure -/

lemma inflateLoopF_congr :
    ∀ f1 f2 (l : List Nat), l.length < f1 → l.length < f2 →
      inflateLoopF f1 l = inflateLoopF f2 l := by
  intro f1
  induction f1 with
  | zero => intro f2 l h1 _; omega
  | succ k ih =>
    intro f2 l h1 h2
    obtain ⟨g, rfl⟩ : ∃ g, f2 = g + 1 := ⟨f2 - 1, by omega⟩
    rcases l with _ | ⟨b, _ | ⟨l1, _ | ⟨l2, _ | ⟨n1, _ | ⟨n2, rest⟩⟩⟩⟩⟩ <;>
      simp only [inflateLoopF]
    split
    · split
      · split
        · have hlen : (rest.drop (l1 + 256 * l2)).length < k ∧
              (rest.drop (l1 + 256 * l2)).length < g := by
            simp only [List.length_drop]
            simp only [List.length_cons] at h1 h2
            omega
          rw [ih g _ hlen.1 hlen.2]
        · rfl
      · rfl
    · rfl

lemma inflate_block (q r : List Nat) (hq : q.length ≤ 65535) :
    inflateLoop (storedHeader false q.length ++ (q ++ r)) =
      (inflateLoop r).map (fun pr => (q ++ pr.1, pr.2)) := by
  have hshape : storedHeader false q.length ++ (q ++ r) =
      0 :: q.length % 256 :: q.length / 256 % 256 ::
        (65535 - q.length) % 256 :: (65535 - q.length) / 256 % 256 :: (q ++ r) := by
    simp [storedHeader, leBytes2]
  rw [hshape]
  show inflateLoopF _ _ = _
  have hfuel : (0 :: q.length % 256 :: q.length / 256 % 256 ::
      (65535 - q.length) % 256 :: (65535 - q.length) / 256 % 256 :: (q ++ r)).length + 1
      = (5 + q.length + r.length) + 1 := by
    simp [List.length_append]
    omega
  rw [hfuel]
  simp only [inflateLoopF]
  rw [if_pos (by constructor <;> omega)]
  have hlen : q.length % 256 + 256 * (q.length / 256 % 256) = q.length := by omega
  simp only [hlen]
  rw [if_pos (by simp [List.length_append])]
  simp only [if_true]
  rw [List.take_left, List.drop_left]
  have hc : inflateLoopF (5 + q.length + r.length) r = inflateLoop r :=
    inflateLoopF_congr _ _ r (by omega) (by omega)
  rw [hc]
  rcases inflateLoop r with _ | ⟨o, rr⟩ <;> simp

lemma inflate_final (r : List Nat) :
    inflateLoop ([0x01, 0x00, 0x00, 0xff, 0xff] ++ r) = some ([], r) := by
  show inflateLoopF _ _ = _
  have h5 : ([0x01, 0x00, 0x00, 0xff, 0xff] ++ r).length + 1 = (5 + r.length) + 1 := by
    simp [List.length_append]
    omega
  rw [h5]
  simp [inflateLoopF]

lemma inflate_marker (r : List Nat) :
    inflateLoop (syncMarker ++ r) = inflateLoop r := by
  have h := inflate_block [] r (by simp)
  simp only [List.nil_append] at h
  have hs : storedHeader false ([] : List Nat).length ++ r = syncMarker ++ r := by
    simp [storedHeader, leBytes2, syncMarker]
  rw [hs] at h
  rw [h]
  rcases inflateLoop r with _ | ⟨o, rr⟩ <;> simp

lemma storedChunksF_inflate :
    ∀ fuel (q r : List Nat), q.length ≤ fuel →
      inflateLoop (storedChunksF fuel q ++ r) =
        (inflateLoop r).map (fun pr => (q ++ pr.1, pr.2)) := by
  intro fuel
  induction fuel with
  | zero =>
    intro q r h
    have hq : q = [] := List.length_eq_zero.mp (by omega)
    subst hq
    simp only [storedChunksF, List.nil_append]
    rcases hr : inflateLoop r with _ | ⟨o, rr⟩ <;> simp [hr]
  | succ f ih =>
    intro q r h
    simp only [storedChunksF]
    by_cases h0 : q.length = 0
    · have hq : q = [] := List.length_eq_zero.mp h0
      subst hq
      simp only [if_pos rfl, List.nil_append]
      rcases hr : inflateLoop r with _ | ⟨o, rr⟩ <;> simp [hr]
    · rw [if_neg h0]
      by_cases h1 : q.length ≤ 65535
      · rw [if_pos h1]
        rw [List.append_assoc]
        exact inflate_block q r h1
      · rw [if_neg h1]
        rw [List.append_assoc, List.append_assoc]
        have hb := inflate_block (q.take 65535)
          (storedChunksF f (q.drop 65535) ++ r) (by simp)
        have htake : (q.take 65535).length = 65535 := by
          simp [List.length_take]
          omega
        rw [htake] at hb
        rw [hb, ih (q.drop 65535) r (by simp [List.length_drop]; omega),
          Option.map_map]
        congr 1
        funext pr
        simp [Function.comp, ← List.append_assoc, List.take_append_drop]

lemma inflate_chunks (q r : List Nat) :
    inflateLoop (storedChunks q ++ r) =
      (inflateLoop r).map (fun pr => (q ++ pr.1, pr.2)) :=
  storedChunksF_inflate q.length q r (Nat.le_refl _)

lemma tzwBytesF_inflate :
    ∀ fuel (p r : List Nat), p.length ≤ fuel + 65535 →
      inflateLoop (tzwBytesF fuel p ++ r) =
        (inflateLoop r).map (fun pr => (p ++ pr.1, pr.2)) := by
  intro fuel
  induction fuel with
  | zero =>
    intro p r h
    simp only [tzwBytesF]
    rw [List.append_assoc]
    exact inflate_block p r (by omega)
  | succ f ih =>
    intro p r h
    simp only [tzwBytesF]
    by_cases h1 : p.length > 65535
    · rw [if_pos h1]
      rw [List.append_assoc, List.append_assoc]
      have hb := inflate_block (p.take 65535) (tzwBytesF f (p.drop 65535) ++ r) (by simp)
      have htake : (p.take 65535).length = 65535 := by
        simp [List.length_take]
        omega
      rw [htake] at hb
      rw [hb, ih (p.drop 65535) r (by simp [List.length_drop]; omega),
        Option.map_map]
      congr 1
      funext pr
      simp [Function.comp, ← List.append_assoc, List.take_append_drop]
    · rw [if_neg h1]
      rw [List.append_assoc]
      exact inflate_block p r (by omega)

lemma tzw_inflate (p r : List Nat) :
    inflateLoop (tzwBytes p ++ r) =
      (inflateLoop r).map (fun pr => (p ++ pr.1, pr.2)) :=
  tzwBytesF_inflate p.length p r (by omega)

lemma blocks_inflate :
    ∀ (calls : List (List Nat)) (r : List Nat),
      inflateLoop ((calls.map tzwBytes).flatten ++ r) =
        (inflateLoop r).map (fun pr => (calls.flatten ++ pr.1, pr.2)) := by
  intro calls
  induction calls with
  | nil =>
    intro r
    simp only [List.map_nil, List.flatten_nil, List.nil_append]
    rcases hr : inflateLoop r with _ | ⟨o, rr⟩ <;> simp [hr]
  | cons c cs ih =>
    intro r
    simp only [List.map_cons, List.flatten_cons, List.append_assoc]
    rw [tzw_inflate, ih, Option.map_map]
    rcases hr : inflateLoop r with _ | ⟨o, rr⟩ <;>
      simp [hr, Function.comp, List.append_assoc]

lemma valueOut_inflate (calls : List (List Nat)) (r : List Nat) :
    inflateLoop (valueOut calls ++ r) =
      (inflateLoop r).map (fun pr => (calls.flatten ++ pr.1, pr.2)) := by
  cases calls with
  | nil =>
    have hv : valueOut [] = syncMarker := by simp [valueOut]
    rw [hv, inflate_marker]
    rcases hr : inflateLoop r with _ | ⟨o, rr⟩ <;> simp [hr]
  | cons c cs =>
    have hv : valueOut (c :: cs) = ((c :: cs).map tzwBytes).flatten := by
      simp [valueOut]
    rw [hv]
    exact blocks_inflate (c :: cs) r

lemma bodyRest_inflate (F : List Nat → List (List Nat)) :
    ∀ (ts tags : List (List Nat)), ts.length = tags.length + 1 →
      ∀ r, inflateLoop (bodyRest flateFlushModel flateCloseModel F ts tags ++ r)
        = some (fullText ts (tags.map (fun g => (F g).flatten)), r) := by
  intro ts
  induction ts with
  | nil => intro tags h r; simp at h
  | cons t rest ih =>
    intro tags h r
    cases rest with
    | nil =>
      have htags : tags = [] := by
        simp only [List.length_cons, List.length_nil] at h
        exact List.length_eq_zero.mp (by omega)
      subst htags
      show inflateLoop (trimSuffix syncMarker (flateCloseModel t) ++ r) = _
      have hc : trimSuffix syncMarker (flateCloseModel t) =
          storedChunks t ++ [0x01, 0x00, 0x00, 0xff, 0xff] :=
        trimSuffix_close (storedChunks t)
      rw [hc, List.append_assoc, inflate_chunks, inflate_final]
      simp [fullText]
    | cons t2 rest2 =>
      cases tags with
      | nil => simp at h
      | cons g gs =>
        show inflateLoop (trimSuffix syncMarker (flateFlushModel t) ++
          valueOut (F g) ++ bodyRest flateFlushModel flateCloseModel F (t2 :: rest2) gs
          ++ r) = _
        have ht : trimSuffix syncMarker (flateFlushModel t) = storedChunks t :=
          trimSuffix_append syncMarker (storedChunks t)
        rw [ht, List.append_assoc, List.append_assoc, inflate_chunks, valueOut_inflate]
        have hlen : (t2 :: rest2).length = gs.length + 1 := by
          simp only [List.length_cons] at h ⊢
          omega
        rw [ih gs hlen r]
        simp [fullText, List.append_assoc]

/-! ## Decomposing the writer state updates -/

lemma updateCRC_nil (poly c : Nat) : updateCRC poly c [] = c := by
  unfold updateCRC
  exact xor_cancel_right c _

lemma updateCRC_append (poly c : Nat) (a b : List Nat) :
    updateCRC poly (updateCRC poly c a) b = updateCRC poly c (a ++ b) := by
  unfold updateCRC
  rw [xor_cancel_right, crcRaw_append]

lemma tzwWriteF_decomp :
    ∀ fuel (st : ExecSt) (p : List Nat),
      tzwWriteF fuel st p =
        ⟨st.out ++ tzwBytesF fuel p, updateCRC ieeePoly st.crc p,
          (st.size + p.length) % 2 ^ 32⟩ := by
  intro fuel
  induction fuel with
  | zero =>
    intro st p
    simp [tzwWriteF, tzwBytesF, emitStored, List.append_assoc]
  | succ f ih =>
    intro st p
    simp only [tzwWriteF, tzwBytesF]
    by_cases h1 : p.length > 65535
    · rw [if_pos h1, if_pos h1, ih]
      have htake : (p.take 65535).length = 65535 := by
        simp [List.length_take]
        omega
      simp only [emitStored, htake]
      have hcrc : updateCRC ieeePoly (updateCRC ieeePoly st.crc (p.take 65535))
          (p.drop 65535) = updateCRC ieeePoly st.crc p := by
        rw [updateCRC_append, List.take_append_drop]
      have hsize : ((st.size + 65535) % 2 ^ 32 + (p.drop 65535).length) % 2 ^ 32
          = (st.size + p.length) % 2 ^ 32 := by
        simp only [List.length_drop]
        omega
      rw [hcrc, hsize]
      simp [List.append_assoc]
    · rw [if_neg h1, if_neg h1]
      simp [emitStored, List.append_assoc]

lemma tzwWrite_decomp (st : ExecSt) (p : List Nat) :
    tzwWrite st p =
      ⟨st.out ++ tzwBytes p, updateCRC ieeePoly st.crc p,
        (st.size + p.length) % 2 ^ 32⟩ :=
  tzwWriteF_decomp p.length st p

lemma foldl_tzwWrite_decomp :
    ∀ (calls : List (List Nat)) (st : ExecSt), st.size < 2 ^ 32 →
      calls.foldl tzwWrite st =
        ⟨st.out ++ (calls.map tzwBytes).flatten,
          updateCRC ieeePoly st.crc calls.flatten,
          (st.size + calls.flatten.length) % 2 ^ 32⟩ := by
  intro calls
  induction calls with
  | nil =>
    intro st hsize
    simp only [List.foldl_nil, List.map_nil, List.flatten_nil, List.append_nil,
      List.length_nil, Nat.add_zero]
    rw [updateCRC_nil, Nat.mod_eq_of_lt hsize]
  | cons c cs ih =>
    intro st hsize
    simp only [List.foldl_cons]
    rw [tzwWrite_decomp, ih _ (Nat.mod_lt _ (by norm_num))]
    simp only [List.map_cons, List.flatten_cons]
    rw [updateCRC_append]
    have hsz : ((st.size + c.length) % 2 ^ 32 + (cs.flatten).length) % 2 ^ 32
        = (st.size + (c ++ cs.flatten).length) % 2 ^ 32 := by
      simp only [List.length_append]
      omega
    rw [hsz]
    simp [List.append_assoc]

lemma execValue_decomp (calls : List (List Nat)) (st : ExecSt)
    (hsize : st.size < 2 ^ 32) :
    execValue calls st =
      ⟨st.out ++ valueOut calls, updateCRC ieeePoly st.crc calls.flatten,
        (st.size + calls.flatten.length) % 2 ^ 32⟩ := by
  unfold execValue
  cases calls with
  | nil =>
    simp only [List.isEmpty_nil, if_pos rfl, List.foldl_nil]
    have hv : valueOut [] = syncMarker := by simp [valueOut]
    rw [hv]
    simp only [List.flatten_nil, List.length_nil, Nat.add_zero]
    rw [updateCRC_nil, Nat.mod_eq_of_lt hsize]
    simp
  | cons c cs =>
    rw [foldl_tzwWrite_decomp _ _ hsize]
    have hv : valueOut (c :: cs) = ((c :: cs).map tzwBytes).flatten := by
      simp [valueOut]
    rw [hv]
    simp

/-! ## The execution loop computes the stitched body, CRC and size -/

lemma combineNat_crc32 (P t : List Nat) (hP : ∀ b ∈ P, b < 256) :
    combineNat (precomputeCRC32 ieeePoly) (crc32v ieeePoly P) (crc32v ieeePoly t) t.length
      = crc32v ieeePoly (P ++ t) :=
  combineNat_correct ieeePoly (by norm_num [ieeePoly]) P t hP

lemma fullText_length :
    ∀ (ts vals : List (List Nat)), ts.length = vals.length + 1 →
      (fullText ts vals).length = (ts.map List.length).sum + (vals.map List.length).sum := by
  intro ts
  induction ts with
  | nil => intro vals h; simp at h
  | cons t rest ih =>
    intro vals h
    cases rest with
    | nil =>
      have hv : vals = [] := by
        simp only [List.length_cons, List.length_nil] at h
        exact List.length_eq_zero.mp (by omega)
      subst hv
      simp [fullText]
    | cons t2 rest2 =>
      cases vals with
      | nil => simp at h
      | cons v vs =>
        have hlen : (t2 :: rest2).length = vs.length + 1 := by
          simp only [List.length_cons] at h ⊢
          omega
        simp only [fullText, List.length_append, List.map_cons, List.sum_cons,
          ih vs hlen]
        omega

lemma mkSegs_head (encF encC : List Nat → List Nat) (t2 : List Nat)
    (rest2 : List (List Nat)) :
    ∃ s2 srest, mkSegs encF encC (t2 :: rest2) = s2 :: srest := by
  cases rest2 with
  | nil => exact ⟨_, _, rfl⟩
  | cons a l => exact ⟨_, _, mkSegs_cons _ _ _ _ (by simp)⟩

lemma execLoop1_spec (encF encC : List Nat → List Nat) (F : List Nat → List (List Nat)) :
    ∀ (ts tags : List (List Nat)), ts.length = tags.length + 1 →
      ∀ (P : List Nat) (st : ExecSt),
        st.crc = crc32v ieeePoly P → st.size < 2 ^ 32 →
        (∀ b ∈ P, b < 256) →
        (∀ u ∈ ts, ∀ b ∈ u, b < 256) →
        (∀ g ∈ tags, ∀ b ∈ (F g).flatten, b < 256) →
        ∃ c, execLoop1 (fun tag => some (F tag)) (mkSegs encF encC ts) tags st =
          some (⟨st.out ++ bodyRest encF encC F ts tags, c,
              (st.size + ((tags.map (fun g => (F g).flatten)).flatten).length) % 2 ^ 32⟩,
            crc32v ieeePoly (P ++ fullText ts (tags.map (fun g => (F g).flatten)))) := by
  intro ts
  induction ts with
  | nil => intro tags h; simp at h
  | cons t rest ih =>
    intro tags h P st hcrc hsize hP hts hF
    cases rest with
    | nil =>
      have htags : tags = [] := by
        simp only [List.length_cons, List.length_nil] at h
        exact List.length_eq_zero.mp (by omega)
      subst htags
      refine ⟨st.crc, ?_⟩
      show execLoop1 _ [⟨trimSuffix syncMarker (encC t), t.length, crc32v ieeePoly t⟩] [] st = _
      simp only [execLoop1]
      have hdig : combineNat (precomputeCRC32 ieeePoly) st.crc (crc32v ieeePoly t) t.length
          = crc32v ieeePoly (P ++ t) := by
        rw [hcrc]
        exact combineNat_crc32 P t hP
      rw [hdig]
      simp only [List.map_nil, List.flatten_nil, List.length_nil, Nat.add_zero,
        Nat.mod_eq_of_lt hsize]
      rfl
    | cons t2 rest2 =>
      cases tags with
      | nil => simp at h
      | cons g gs =>
        rw [mkSegs_cons _ _ _ _ (by simp)]
        obtain ⟨s2, srest, hm⟩ := mkSegs_head encF encC t2 rest2
        rw [hm]
        show ∃ c, execLoop1 _
          (⟨trimSuffix syncMarker (encF t), t.length, crc32v ieeePoly t⟩ :: s2 :: srest)
          (g :: gs) st = _
        simp only [execLoop1]
        have hst1crc : combineNat (precomputeCRC32 ieeePoly) st.crc
            (crc32v ieeePoly t) t.length = crc32v ieeePoly (P ++ t) := by
          rw [hcrc]
          exact combineNat_crc32 P t hP
        rw [hst1crc]
        rw [execValue_decomp (F g)
          ⟨st.out ++ trimSuffix syncMarker (encF t), crc32v ieeePoly (P ++ t), st.size⟩
          hsize]
        dsimp only
        rw [updateCRC_crc32 ieeePoly (P ++ t) (F g).flatten]
        have hlen2 : (t2 :: rest2).length = gs.length + 1 := by
          simp only [List.length_cons] at h ⊢
          omega
        have hP2 : ∀ b ∈ (P ++ t) ++ (F g).flatten, b < 256 := by
          intro b hb
          rcases List.mem_append.mp hb with hb1 | hb2
          · rcases List.mem_append.mp hb1 with hb3 | hb4
            · exact hP b hb3
            · exact hts t (List.mem_cons_self _ _) b hb4
          · exact hF g (List.mem_cons_self _ _) b hb2
        have hts2 : ∀ u ∈ t2 :: rest2, ∀ b ∈ u, b < 256 :=
          fun u hu => hts u (List.mem_cons_of_mem _ hu)
        have hF2 : ∀ g2 ∈ gs, ∀ b ∈ (F g2).flatten, b < 256 :=
          fun g2 hg => hF g2 (List.mem_cons_of_mem _ hg)
        obtain ⟨c, hrec⟩ := ih gs hlen2 ((P ++ t) ++ (F g).flatten)
          ⟨st.out ++ trimSuffix syncMarker (encF t) ++ valueOut (F g),
            crc32v ieeePoly ((P ++ t) ++ (F g).flatten),
            (st.size + (F g).flatten.length) % 2 ^ 32⟩
          rfl (Nat.mod_lt _ (by norm_num)) hP2 hts2 hF2
        rw [hm] at hrec
        rw [hrec]
        refine ⟨c, ?_⟩
        dsimp only
        have hout : st.out ++ trimSuffix syncMarker (encF t) ++ valueOut (F g) ++
            bodyRest encF encC F (t2 :: rest2) gs
            = st.out ++ bodyRest encF encC F (t :: t2 :: rest2) (g :: gs) := by
          simp [bodyRest, List.append_assoc]
        have hsz : ((st.size + (F g).flatten.length) % 2 ^ 32 +
            ((gs.map (fun g2 => (F g2).flatten)).flatten).length) % 2 ^ 32
            = (st.size + (((g :: gs).map (fun g2 => (F g2).flatten)).flatten).length)
              % 2 ^ 32 := by
          simp only [List.map_cons, List.flatten_cons, List.length_append]
          omega
        have hfull : ((P ++ t) ++ (F g).flatten) ++
            fullText (t2 :: rest2) (gs.map (fun g2 => (F g2).flatten))
            = P ++ fullText (t :: t2 :: rest2) ((g :: gs).map (fun g2 => (F g2).flatten)) := by
          simp [fullText, List.append_assoc]
        rw [hout, hsz, hfull]

lemma executeFunc_spec (encF encC : List Nat → List Nat) (F : List Nat → List (List Nat))
    (ts tags : List (List Nat)) (level : Int)
    (h : ts.length = tags.length + 1) (h1 : 1 ≤ tags.length)
    (hts : ∀ u ∈ ts, ∀ b ∈ u, b < 256)
    (hF : ∀ g ∈ tags, ∀ b ∈ (F g).flatten, b < 256) :
    executeFunc
      ⟨[], mkSegs encF encC ts, tags,
        ((mkSegs encF encC ts).map Segment.size).sum % 2 ^ 32, gzipHdrBytes level⟩
      (fun tag => some (F tag)) =
    some (gzipHdrBytes level ++ bodyRest encF encC F ts tags ++
      le32 (crc32v ieeePoly (fullText ts (tags.map (fun g => (F g).flatten)))) ++
      le32 ((fullText ts (tags.map (fun g => (F g).flatten))).length % 2 ^ 32)) := by
  rcases ts with _ | ⟨t, ts'⟩
  · simp at h
  rcases ts' with _ | ⟨t2, rest2⟩
  · simp only [List.length_cons, List.length_nil] at h
    omega
  rcases tags with _ | ⟨g, gs⟩
  · simp at h1
  rw [mkSegs_cons _ _ _ _ (by simp)]
  obtain ⟨s2, srest, hm⟩ := mkSegs_head encF encC t2 rest2
  rw [hm]
  show executeFunc
      ⟨[], ⟨trimSuffix syncMarker (encF t), t.length, crc32v ieeePoly t⟩ :: s2 :: srest,
        g :: gs, _, gzipHdrBytes level⟩ _ = _
  simp only [executeFunc]
  rw [execValue_decomp (F g)
    ⟨gzipHdrBytes level ++ trimSuffix syncMarker (encF t), crc32v ieeePoly t,
      ((⟨trimSuffix syncMarker (encF t), t.length, crc32v ieeePoly t⟩ :: s2 :: srest).map
        Segment.size).sum % 2 ^ 32⟩
    (Nat.mod_lt _ (by norm_num))]
  dsimp only
  have hup : updateCRC ieeePoly (crc32v ieeePoly t) (F g).flatten
      = crc32v ieeePoly (t ++ (F g).flatten) := updateCRC_crc32 ieeePoly t (F g).flatten
  rw [hup]
  have hlen2 : (t2 :: rest2).length = gs.length + 1 := by
    simp only [List.length_cons] at h ⊢
    omega
  have hP2 : ∀ b ∈ t ++ (F g).flatten, b < 256 := by
    intro b hb
    rcases List.mem_append.mp hb with hb1 | hb2
    · exact hts t (List.mem_cons_self _ _) b hb1
    · exact hF g (List.mem_cons_self _ _) b hb2
  obtain ⟨c, hrec⟩ := execLoop1_spec encF encC F (t2 :: rest2) gs hlen2
    (t ++ (F g).flatten)
    ⟨gzipHdrBytes level ++ trimSuffix syncMarker (encF t) ++ valueOut (F g),
      crc32v ieeePoly (t ++ (F g).flatten),
      ((((⟨trimSuffix syncMarker (encF t), t.length, crc32v ieeePoly t⟩ :: s2 :: srest).map
        Segment.size).sum % 2 ^ 32) + (F g).flatten.length) % 2 ^ 32⟩
    rfl (Nat.mod_lt _ (by norm_num)) hP2
    (fun u hu => hts u (List.mem_cons_of_mem _ hu))
    (fun g2 hg => hF g2 (List.mem_cons_of_mem _ hg))
  rw [hm] at hrec
  rw [hrec]
  dsimp only
  have hout : gzipHdrBytes level ++ trimSuffix syncMarker (encF t) ++ valueOut (F g) ++
      bodyRest encF encC F (t2 :: rest2) gs
      = gzipHdrBytes level ++ bodyRest encF encC F (t :: t2 :: rest2) (g :: gs) := by
    simp [bodyRest, List.append_assoc]
  have hfull : (t ++ (F g).flatten) ++
      fullText (t2 :: rest2) (gs.map (fun g2 => (F g2).flatten))
      = fullText (t :: t2 :: rest2) ((g :: gs).map (fun g2 => (F g2).flatten)) := by
    simp [fullText, List.append_assoc]
  have hsz : (((((⟨trimSuffix syncMarker (encF t), t.length, crc32v ieeePoly t⟩ ::
        s2 :: srest).map Segment.size).sum % 2 ^ 32) + (F g).flatten.length) % 2 ^ 32 +
        ((gs.map (fun g2 => (F g2).flatten)).flatten).length) % 2 ^ 32
      = (fullText (t :: t2 :: rest2) ((g :: gs).map (fun g2 => (F g2).flatten))).length
          % 2 ^ 32 := by
    rw [fullText_length _ _
      (by simp only [List.length_cons, List.length_map] at h ⊢; omega)]
    have hsg : ((⟨trimSuffix syncMarker (encF t), t.length, crc32v ieeePoly t⟩ ::
        s2 :: srest).map Segment.size).sum
        = ((t :: t2 :: rest2).map List.length).sum := by
      rw [← hm, ← mkSegs_cons encF encC t (t2 :: rest2) (by simp),
        mkSegs_sizes encF encC (t :: t2 :: rest2)]
    rw [hsg]
    simp only [List.map_cons, List.map_map, List.sum_cons, List.length_flatten,
      List.map_map]
    have : ((gs.map fun g2 => (F g2).flatten).map List.length).sum
        = (gs.map (List.length ∘ fun g2 => (F g2).flatten)).sum := by
      rw [List.map_map]
    omega
  rw [hout, hfull, hsz]

/-! ## Assembling and decoding a full gzip member -/

lemma gunzip_assembled (level : Int) (body o : List Nat)
    (hb : inflateLoop (body ++ (le32 (crc32v ieeePoly o) ++ le32 (o.length % 2 ^ 32)))
      = some (o, le32 (crc32v ieeePoly o) ++ le32 (o.length % 2 ^ 32))) :
    gunzip (gzipHdrBytes level ++ body ++ le32 (crc32v ieeePoly o) ++
        le32 (o.length % 2 ^ 32))
      = some o := by
  have hshape : gzipHdrBytes level ++ body ++ le32 (crc32v ieeePoly o) ++
      le32 (o.length % 2 ^ 32)
      = 0x1f :: 0x8b :: 8 :: 0 :: 0 :: 0 :: 0 :: 0 ::
        (if level = 9 then 2 else if level = 1 then 4 else 0) :: 255 ::
        (body ++ (le32 (crc32v ieeePoly o) ++ le32 (o.length % 2 ^ 32))) := by
    simp [gzipHdrBytes, List.append_assoc]
  rw [hshape]
  simp only [gunzip]
  rw [hb]
  have hm2 : le32 (o.length % 2 ^ 32) = le32 o.length := le32_mod o.length
  dsimp only
  rw [hm2]
  simp

lemma substSpec_no_tag (s e : List Nat) (g : List Nat → List Nat) (T : List Nat)
    (h : idxOf s T = none) : substSpec s e g T = T := by
  unfold substSpec
  simp [substSpecF, h]

lemma splitLoopF_tags_pos {s e st : List Nat} {fuel n : Nat}
    {ts tags : List (List Nat)}
    (h : splitLoopF s e (fuel + 1) st = some (ts, tags))
    (hidx : idxOf s st = some n) : 1 ≤ tags.length := by
  simp only [splitLoopF, hidx] at h
  split at h
  · exact absurd h (by simp)
  · split at h
    · exact absurd h (by simp)
    · simp only [Option.some_inj, Prod.mk.injEq] at h
      obtain ⟨_, rfl⟩ := h
      simp

lemma stdTagFunc_writes (M : List Nat → GoValue) (hM : ∀ tag, M tag ≠ GoValue.other) :
    stdTagFunc M = fun tag => some (writesOf (M tag)) := by
  funext tag
  unfold stdTagFunc writesOf
  rcases hv : M tag <;> simp
  exact absurd hv (hM tag)

lemma NewTemplateGo_ok (encF encC : List Nat → List Nat) (T s e : List Nat)
    (level : Int) (t : GoTemplate)
    (hok : NewTemplateGo encF encC T s e level = GoResult.ok t) :
    s ≠ [] ∧ e ≠ [] ∧ ¬(level < -2 ∨ 9 < level) ∧
    ((countSub s T = 0 ∧ t = ⟨gzipFull encC level T, [], [], 0, gzipHdrBytes level⟩) ∨
     (∃ ts tags n, idxOf s T = some n ∧
        splitLoopF s e (T.length + 1) T = some (ts, tags) ∧
        t = ⟨[], mkSegs encF encC ts, tags,
          ((mkSegs encF encC ts).map Segment.size).sum % 2 ^ 32, gzipHdrBytes level⟩)) := by
  unfold NewTemplateGo at hok
  split at hok
  · exact absurd hok (by simp)
  split at hok
  · exact absurd hok (by simp)
  split at hok
  · exact absurd hok (by simp)
  rename_i hs he hlvl
  refine ⟨hs, he, hlvl, ?_⟩
  split at hok
  · rename_i hcount
    left
    injection hok with h
    exact ⟨hcount, h.symm⟩
  · rename_i hcount
    right
    rw [parseLoopGo, parseLoopF_split] at hok
    rcases hsp : splitLoopF s e (T.length + 1) T with _ | ⟨ts, tags⟩
    · rw [hsp] at hok
      exact absurd hok (by simp)
    · rw [hsp] at hok
      simp only [Option.map_some'] at hok
      have hidx : ∃ n, idxOf s T = some n := by
        rcases hx : idxOf s T with _ | n
        · exact absurd ((countSub_zero_iff s T).mpr hx) hcount
        · exact ⟨n, rfl⟩
      obtain ⟨n, hn⟩ := hidx
      refine ⟨ts, tags, n, hn, rfl, ?_⟩
      injection hok with h
      exact h.symm

/-- C1: round-trip.  For every template string `T`, non-empty delimiters,
supported compression level, and substitution map `M` whose values are of
the three recognised kinds, executing the template constructed from
`(T, s, e, level)` with `M` produces a byte stream whose gzip decompression
is exactly `T` with every placeholder occurrence `s TAG e` replaced by the
bytes `M` produces for `TAG` (none for a missing key).  The external flate
encoder and gzip decoder are modelled from the spec as stored-block DEFLATE
codecs. -/
theorem execute_roundtrip (T s e : List Nat) (level : Int) (M : List Nat → GoValue)
    (t : GoTemplate)
    (hT : ∀ b ∈ T, b < 256)
    (hM : ∀ tag, M tag ≠ GoValue.other)
    (hMb : ∀ tag, ∀ b ∈ (writesOf (M tag)).flatten, b < 256)
    (hok : NewTemplateGo flateFlushModel flateCloseModel T s e level = GoResult.ok t) :
    (executeFunc t (stdTagFunc M)).bind gunzip =
      some (substSpec s e (mapBytes M) T) := by
  obtain ⟨hs, he, hlvl, hcase⟩ := NewTemplateGo_ok _ _ T s e level t hok
  rcases hcase with ⟨hcount, rfl⟩ | ⟨ts, tags, n, hn, hsp, rfl⟩
  · show (some (gzipFull flateCloseModel level T)).bind gunzip = _
    rw [Option.some_bind]
    have hidx : idxOf s T = none := (countSub_zero_iff s T).mp hcount
    rw [substSpec_no_tag s e _ T hidx]
    have hb : inflateLoop (flateCloseModel T ++
        (le32 (crc32v ieeePoly T) ++ le32 (T.length % 2 ^ 32)))
        = some (T, le32 (crc32v ieeePoly T) ++ le32 (T.length % 2 ^ 32)) := by
      show inflateLoop (storedChunks T ++ [0x01, 0x00, 0x00, 0xff, 0xff] ++
        (le32 (crc32v ieeePoly T) ++ le32 (T.length % 2 ^ 32))) = _
      rw [List.append_assoc, inflate_chunks, inflate_final]
      simp
    have hg := gunzip_assembled level (flateCloseModel T) T hb
    have hshape : gzipFull flateCloseModel level T
        = gzipHdrBytes level ++ flateCloseModel T ++ le32 (crc32v ieeePoly T) ++
          le32 (T.length % 2 ^ 32) := by
      unfold gzipFull
      rw [le32_mod]
    rw [hshape, hg]
  · have hsh : ts.length = tags.length + 1 := splitLoopF_shape _ _ _ _ _ _ hsp
    have h1 : 1 ≤ tags.length := splitLoopF_tags_pos hsp hn
    obtain ⟨hmemT, _⟩ := splitLoopF_mem s e _ T ts tags hsp
    have hts : ∀ u ∈ ts, ∀ b ∈ u, b < 256 := fun u hu b hb => hT b (hmemT u hu b hb)
    have hFb : ∀ g ∈ tags, ∀ b ∈ (writesOf (M g)).flatten, b < 256 := fun g _ => hMb g
    rw [stdTagFunc_writes M hM]
    rw [executeFunc_spec flateFlushModel flateCloseModel (fun tag => writesOf (M tag))
      ts tags level hsh h1 hts hFb]
    rw [Option.some_bind]
    have hb := bodyRest_inflate (fun tag => writesOf (M tag)) ts tags hsh
      (le32 (crc32v ieeePoly
        (fullText ts (tags.map (fun g => (writesOf (M g)).flatten)))) ++
       le32 ((fullText ts (tags.map (fun g => (writesOf (M g)).flatten))).length % 2 ^ 32))
    rw [gunzip_assembled level _ _ hb]
    unfold substSpec
    rw [substSpecF_split s e (mapBytes M) (T.length + 1) T ts tags hsp]
    rfl

lemma mkSegs_ne_nil (encF encC : List Nat → List Nat) (t : List Nat)
    (ts : List (List Nat)) : mkSegs encF encC (t :: ts) ≠ [] := by
  cases ts <;> simp [mkSegs]

lemma mkSegs_length (encF encC : List Nat → List Nat) :
    ∀ ts, (mkSegs encF encC ts).length = ts.length
  | [] => rfl
  | [_] => rfl
  | t :: t2 :: ts => by
    rw [mkSegs_cons _ _ _ _ (by simp)]
    simp only [List.length_cons]
    rw [mkSegs_length encF encC (t2 :: ts)]
    simp

lemma mapGet_eraseKey_self (k : List Nat) :
    ∀ m, mapGet (eraseKey k m) k = GoValue.nil
  | [] => rfl
  | (k', _) :: rest => by
    unfold eraseKey
    by_cases h : k' = k
    · rw [if_pos h]
      exact mapGet_eraseKey_self k rest
    · rw [if_neg h]
      unfold mapGet
      rw [if_neg h]
      exact mapGet_eraseKey_self k rest

lemma mapGet_eraseKey_ne (k tag : List Nat) (hne : tag ≠ k) :
    ∀ m, mapGet (eraseKey k m) tag = mapGet m tag
  | [] => rfl
  | (k', v) :: rest => by
    unfold eraseKey
    by_cases h : k' = k
    · rw [if_pos h]
      show mapGet (eraseKey k rest) tag = if k' = tag then v else mapGet rest tag
      rw [if_neg (fun h2 => hne ((h.symm.trans h2).symm))]
      exact mapGet_eraseKey_ne k tag hne rest
    · rw [if_neg h]
      show (if k' = tag then v else mapGet (eraseKey k rest) tag)
        = if k' = tag then v else mapGet rest tag
      by_cases h2 : k' = tag
      · rw [if_pos h2, if_pos h2]
      · rw [if_neg h2, if_neg h2]
        exact mapGet_eraseKey_ne k tag hne rest

/-- Closed instance of the round-trip theorem: template `a[x]b`, delimiters
`[` and `]`, level 9, the map sending `x` to `11`. -/
theorem execute_roundtrip_witness :
    (∀ b ∈ strB "a[x]b", b < 256) ∧
    (executeFunc tplW (stdTagFunc mapW)).bind gunzip
      = some (substSpec (strB "[") (strB "]") (mapBytes mapW) (strB "a[x]b")) := by
  refine ⟨by decide, ?_⟩
  refine execute_roundtrip (strB "a[x]b") (strB "[") (strB "]") 9 mapW tplW
    (by decide) ?_ ?_ ?_
  · intro tag
    by_cases h : tag = strB "x"
    · simp only [mapW, if_pos h]
      decide
    · simp only [mapW, if_neg h]
      decide
  · intro tag
    by_cases h : tag = strB "x"
    · simp only [mapW, if_pos h]
      decide
    · simp only [mapW, if_neg h]
      decide
  · rfl

/-- C5: trailer correctness.  For every execution of a template containing
at least one placeholder, the final 8 bytes written are the IEEE CRC-32 of
the complete uncompressed output (the substituted template) encoded
little-endian in 4 bytes, followed by the total uncompressed length
reduced modulo `2 ^ 32` encoded little-endian in 4 bytes. -/
theorem trailer_correct (T s e : List Nat) (level : Int) (M : List Nat → GoValue)
    (t : GoTemplate)
    (hT : ∀ b ∈ T, b < 256)
    (hM : ∀ tag, M tag ≠ GoValue.other)
    (hMb : ∀ tag, ∀ b ∈ (writesOf (M tag)).flatten, b < 256)
    (hok : NewTemplateGo flateFlushModel flateCloseModel T s e level = GoResult.ok t)
    (hcnt : countSub s T ≠ 0) :
    ∃ pre, executeFunc t (stdTagFunc M)
      = some (pre ++ le32 (crc32v ieeePoly (substSpec s e (mapBytes M) T)) ++
          le32 ((substSpec s e (mapBytes M) T).length % 2 ^ 32)) := by
  obtain ⟨hs, he, hlvl, hcase⟩ := NewTemplateGo_ok _ _ T s e level t hok
  rcases hcase with ⟨hc0, rfl⟩ | ⟨ts, tags, n, hn, hsp, rfl⟩
  · exact absurd hc0 hcnt
  · have hsh : ts.length = tags.length + 1 := splitLoopF_shape _ _ _ _ _ _ hsp
    have h1 : 1 ≤ tags.length := splitLoopF_tags_pos hsp hn
    obtain ⟨hmemT, _⟩ := splitLoopF_mem s e _ T ts tags hsp
    have hts : ∀ u ∈ ts, ∀ b ∈ u, b < 256 := fun u hu b hb => hT b (hmemT u hu b hb)
    have hFb : ∀ g ∈ tags, ∀ b ∈ (writesOf (M g)).flatten, b < 256 := fun g _ => hMb g
    rw [stdTagFunc_writes M hM,
      executeFunc_spec flateFlushModel flateCloseModel (fun tag => writesOf (M tag))
        ts tags level hsh h1 hts hFb]
    refine ⟨gzipHdrBytes level ++
      bodyRest flateFlushModel flateCloseModel (fun tag => writesOf (M tag)) ts tags, ?_⟩
    unfold substSpec
    rw [substSpecF_split s e (mapBytes M) (T.length + 1) T ts tags hsp]
    have hmb : fullText ts (tags.map (mapBytes M))
        = fullText ts (tags.map (fun g => (writesOf (M g)).flatten)) := rfl
    rw [hmb]

/-- Closed instance of the trailer theorem at the template `a[x]b` with
delimiters `[` and `]` and the map sending `x` to `11`. -/
theorem trailer_correct_witness :
    countSub (strB "[") (strB "a[x]b") ≠ 0 ∧
    ∃ pre, executeFunc tplW (stdTagFunc mapW)
      = some (pre ++ le32 (crc32v ieeePoly
            (substSpec (strB "[") (strB "]") (mapBytes mapW) (strB "a[x]b"))) ++
          le32 ((substSpec (strB "[") (strB "]")
            (mapBytes mapW) (strB "a[x]b")).length % 2 ^ 32)) := by
  refine ⟨by decide, ?_⟩
  refine trailer_correct (strB "a[x]b") (strB "[") (strB "]") 9 mapW tplW
    (by decide) ?_ ?_ rfl (by decide)
  · intro tag
    by_cases h : tag = strB "x"
    · simp only [mapW, if_pos h]
      decide
    · simp only [mapW, if_neg h]
      decide
  · intro tag
    by_cases h : tag = strB "x"
    · simp only [mapW, if_pos h]
      decide
    · simp only [mapW, if_neg h]
      decide

/-- C6: counterexample.  A callback can write zero bytes while still making
a `Write` call (`stdTagFunc` does exactly that for an empty string value):
the stored-block writer then emits a 5-byte empty stored block itself —
not nothing — and the builder appends no sync-flush marker for that
placeholder (`zw.wrote` was set by the empty `Write`).  The observable
bytes coincide with the marker only because an empty stored block happens
to have the same encoding. -/
theorem empty_write_emits_block_cex :
    stdTagFunc (mapGet [(strB "x", GoValue.str [])]) (strB "x") = some [[]] ∧
    tzwBytes [] = [0x00, 0x00, 0x00, 0xff, 0xff] ∧
    tzwBytes [] ≠ [] ∧
    execValue [[]] ⟨[], 0, 0⟩ = tzwWrite ⟨[], 0, 0⟩ [] ∧
    (execValue [[]] ⟨[], 0, 0⟩).out = [0x00, 0x00, 0x00, 0xff, 0xff] := by
  decide

/-- C6 amended: the builder's bare sync-flush marker is keyed on the
callback having made no `Write` call at all, not on it having written zero
bytes: with no call the value emission is exactly the marker appended to
the state's output, while with at least one call (even an empty one) it is
exactly the folded stored-block writes with no marker; an empty `Write`
call itself emits the empty stored block, whose five bytes equal the
marker. -/
theorem empty_value_marker_amended (calls : List (List Nat)) (st : ExecSt) :
    (calls = [] →
      execValue calls st = { st with out := st.out ++ syncMarker }) ∧
    (calls ≠ [] → execValue calls st = calls.foldl tzwWrite st) ∧
    tzwBytes [] = syncMarker := by
  refine ⟨?_, ?_, by decide⟩
  · rintro rfl
    rfl
  · intro h
    rcases calls with _ | ⟨c, cs⟩
    · exact absurd rfl h
    · rfl

/-- Closed instance of the amended C6 theorem at an empty call list and at
a single one-byte call. -/
theorem empty_value_marker_amended_witness :
    execValue [] ⟨[], 7, 3⟩ = { ExecSt.mk [] 7 3 with out := [] ++ syncMarker } ∧
    execValue [[1]] ⟨[], 7, 3⟩ = [[1]].foldl tzwWrite ⟨[], 7, 3⟩ :=
  ⟨(empty_value_marker_amended [] ⟨[], 7, 3⟩).1 rfl,
   (empty_value_marker_amended [[1]] ⟨[], 7, 3⟩).2.1 (by decide)⟩

set_option maxRecDepth 100000 in
/-- C7: identical start and end delimiters are permitted, the first
occurrence after a start being taken as the matching end: building
`foo@foo@foo@aaa@` with both delimiters `@` and executing it with the map
`{foo ↦ 111, aaa ↦ bbb}` succeeds and gzip-decompresses to exactly
`foo111foobbb`. -/
theorem identical_delimiters_scenario :
    isOkR (NewTemplateGo flateFlushModel flateCloseModel (strB "foo@foo@foo@aaa@")
      (strB "@") (strB "@") 9) = true ∧
    (executeFunc (templateOf (NewTemplateGo flateFlushModel flateCloseModel
        (strB "foo@foo@foo@aaa@") (strB "@") (strB "@") 9))
      (stdTagFunc (mapGet map7))).bind gunzip = some (strB "foo111foobbb") := by
  decide

/-- C8: counterexample.  In the template `abxbab` with start tag `ab` and
end tag `ba`, the occurrence of `ab` at index 4 is followed by no later
occurrence of `ba` (none from index 5 on, hence none after the start tag
at index 6 on either), yet construction succeeds: the left-to-right parser
consumed that region as part of the first placeholder's end tag, so not
every unterminated-looking start occurrence makes `NewTemplate` fail. -/
theorem unterminated_cex :
    idxOf (strB "ab") ((strB "abxbab").drop 4) = some 0 ∧
    idxOf (strB "ba") ((strB "abxbab").drop 5) = none ∧
    idxOf (strB "ba") ((strB "abxbab").drop 6) = none ∧
    isOkR (NewTemplateGo flateFlushModel flateCloseModel (strB "abxbab")
      (strB "ab") (strB "ba") 9) = true := by
  decide

/-- C8 amended: the failure condition holds for the parser's left-to-right
scan: when the first occurrence of the start tag has no occurrence of the
end tag after it, `NewTemplate` returns a parse error and `New` panics. -/
theorem unterminated_first_amended (T s e : List Nat) (level : Int) (n : Nat)
    (hs : s ≠ []) (he : e ≠ [])
    (hlvl : ¬(level < -2 ∨ 9 < level))
    (hn : idxOf s T = some n)
    (hne : idxOf e (T.drop (n + s.length)) = none) :
    NewTemplateGo flateFlushModel flateCloseModel T s e level = GoResult.failed ∧
    NewGo flateFlushModel flateCloseModel T s e level = GoResult.panicked := by
  have hcnt : countSub s T ≠ 0 := fun h0 => by
    have hno := (countSub_zero_iff s T).mp h0
    rw [hno] at hn
    simp at hn
  have hmain : NewTemplateGo flateFlushModel flateCloseModel T s e level
      = GoResult.failed := by
    unfold NewTemplateGo
    rw [if_neg hs, if_neg he, if_neg hlvl, if_neg hcnt]
    rw [parseLoopGo, parseLoopF_split]
    have hsplit : splitLoopF s e (T.length + 1) T = none := by
      simp only [splitLoopF, hn, hne]
    rw [hsplit]
    rfl
  exact ⟨hmain, by unfold NewGo; rw [hmain]⟩

/-- Closed instance of the amended C8 theorem: `a[b` with delimiters `[`
and `]` fails to build, and `New` panics. -/
theorem unterminated_first_amended_witness :
    NewTemplateGo flateFlushModel flateCloseModel (strB "a[b") (strB "[")
      (strB "]") 9 = GoResult.failed ∧
    NewGo flateFlushModel flateCloseModel (strB "a[b") (strB "[")
      (strB "]") 9 = GoResult.panicked :=
  unterminated_first_amended (strB "a[b") (strB "[") (strB "]") 9 1
    (by decide) (by decide) (by decide) (by decide) (by decide)

/-- C9: structural invariant.  For every successfully constructed template
containing at least one placeholder, the precompressed segment sequence is
non-empty, its length is the number of parsed tags plus one, and the
segments come from raw text pieces that interleave with the tags and the
delimiters, in order, back to the original template string. -/
theorem segments_interleave_invariant (T s e : List Nat) (level : Int)
    (t : GoTemplate)
    (hok : NewTemplateGo flateFlushModel flateCloseModel T s e level = GoResult.ok t)
    (hcnt : countSub s T ≠ 0) :
    t.texts ≠ [] ∧ t.texts.length = t.tags.length + 1 ∧
    ∃ ts, t.texts = mkSegs flateFlushModel flateCloseModel ts ∧
      ts.length = t.tags.length + 1 ∧ interleaveT s e ts t.tags = T := by
  obtain ⟨hs, he, hlvl, hcase⟩ := NewTemplateGo_ok _ _ T s e level t hok
  rcases hcase with ⟨hc0, rfl⟩ | ⟨ts, tags, n, hn, hsp, rfl⟩
  · exact absurd hc0 hcnt
  · dsimp only
    have hsh : ts.length = tags.length + 1 := splitLoopF_shape _ _ _ _ _ _ hsp
    have hint : interleaveT s e ts tags = T := splitLoopF_interleave _ _ _ _ _ _ hsp
    refine ⟨?_, ?_, ts, rfl, hsh, hint⟩
    · rcases ts with _ | ⟨t1, ts'⟩
      · simp at hsh
      · exact mkSegs_ne_nil _ _ _ _
    · rw [mkSegs_length]
      exact hsh

/-- Closed instance of the structural invariant at the template `a[x]b`
with delimiters `[` and `]`. -/
theorem segments_interleave_invariant_witness :
    tplW.texts ≠ [] ∧ tplW.texts.length = tplW.tags.length + 1 ∧
    ∃ ts, tplW.texts = mkSegs flateFlushModel flateCloseModel ts ∧
      ts.length = tplW.tags.length + 1 ∧
      interleaveT (strB "[") (strB "]") ts tplW.tags = strB "a[x]b" :=
  segments_interleave_invariant (strB "a[x]b") (strB "[") (strB "]") 9 tplW
    rfl (by decide)

/-- C10: in map mode a key present with a `nil` value behaves identically
to a missing key: the tag function writes nothing and does not panic for
that key, its behaviour on every tag equals the behaviour on the map with
the key removed, and any execution with the two maps produces the same
result. -/
theorem nil_value_like_missing (k : List Nat) (m : List (List Nat × GoValue)) :
    stdTagFunc (mapGet ((k, GoValue.nil) :: m)) k = some [] ∧
    (∀ tag, stdTagFunc (mapGet ((k, GoValue.nil) :: m)) tag
      = stdTagFunc (mapGet (eraseKey k ((k, GoValue.nil) :: m))) tag) ∧
    ∀ t : GoTemplate,
      executeFunc t (stdTagFunc (mapGet ((k, GoValue.nil) :: m)))
        = executeFunc t (stdTagFunc (mapGet (eraseKey k ((k, GoValue.nil) :: m)))) := by
  have h0 : mapGet ((k, GoValue.nil) :: m) k = GoValue.nil := by
    show (if k = k then GoValue.nil else mapGet m k) = GoValue.nil
    rw [if_pos rfl]
  have herase : eraseKey k ((k, GoValue.nil) :: m) = eraseKey k m := by
    show (if k = k then eraseKey k m else (k, GoValue.nil) :: eraseKey k m)
      = eraseKey k m
    rw [if_pos rfl]
  have hpt : ∀ tag, stdTagFunc (mapGet ((k, GoValue.nil) :: m)) tag
      = stdTagFunc (mapGet (eraseKey k ((k, GoValue.nil) :: m))) tag := by
    intro tag
    rw [herase]
    by_cases h : tag = k
    · subst h
      unfold stdTagFunc
      rw [h0, mapGet_eraseKey_self]
    · unfold stdTagFunc
      rw [mapGet_eraseKey_ne k tag h m]
      have hskip : mapGet ((k, GoValue.nil) :: m) tag = mapGet m tag := by
        show (if k = tag then GoValue.nil else mapGet m tag) = mapGet m tag
        rw [if_neg (fun h2 => h h2.symm)]
      rw [hskip]
  refine ⟨?_, hpt, ?_⟩
  · unfold stdTagFunc
    rw [h0]
  · intro t
    have hfun : stdTagFunc (mapGet ((k, GoValue.nil) :: m))
        = stdTagFunc (mapGet (eraseKey k ((k, GoValue.nil) :: m))) := funext hpt
    rw [hfun]
